import Mathlib

/-!
Verification of the core of `generate_tech_tree.py` (Stellaris Dynamic
Technology Tree Generator): the block-structured text parser, the entity
store and graph builder, reachability sizing, cycle detection and the
cycle-safe tree renderer.  Each Python function named below is embedded as
a Lean definition; machine strings are Lean `String`s (lists of unicode
characters, as in Python 3).
-/

set_option maxHeartbeats 1000000

set_option maxRecDepth 8192

/-! ## Character-level helpers

Braces and quotes are built with `Char.ofNat` to keep literals out of the
source text; `lbrace`/`rbrace` are the characters `{` and `}`. -/

def lbrace : Char := Char.ofNat 123

def rbrace : Char := Char.ofNat 125

def dquoteChar : Char := Char.ofNat 34

def squoteStr : String := String.mk [Char.ofNat 39]

def hashChar : Char := '#'

/-- Word characters as matched by the parser regexes (`\w` / `[\w_]`),
modelled on their ASCII part: letters, digits and underscore. -/
def isWordChar (c : Char) : Bool := c.isAlphanum || c = '_'

/-- Whitespace as matched by `\s` in the parser regexes and by
`str.lstrip`, modelled on its ASCII part. -/
def isPySpace (c : Char) : Bool :=
  c = ' ' || c = '\t' || c = '\n' || c = '\r' || c = Char.ofNat 11 || c = Char.ofNat 12

/-- The line-break characters recognised by Python's `str.splitlines`. -/
def isLineBreakChar (c : Char) : Bool :=
  c = '\n' || c = '\r' || c = Char.ofNat 11 || c = Char.ofNat 12 || c = Char.ofNat 28 ||
  c = Char.ofNat 29 || c = Char.ofNat 30 || c = Char.ofNat 133 || c = Char.ofNat 8232 ||
  c = Char.ofNat 8233

def pySplitlinesAux : List Char → List Char → List (List Char)
  | [], acc => if acc.isEmpty then [] else [acc.reverse]
  | '\r' :: '\n' :: rest, acc => acc.reverse :: pySplitlinesAux rest []
  | c :: rest, acc =>
    if isLineBreakChar c then acc.reverse :: pySplitlinesAux rest []
    else pySplitlinesAux rest (c :: acc)

/-- Python's `str.splitlines`: split at line breaks (`\r\n` counts as one
break), with no trailing empty line for a trailing break. -/
def pySplitlines (cs : List Char) : List (List Char) := pySplitlinesAux cs []

/-! ## Comment stripper and block extractor -/

/-- `_remove_comments_from_content` (src lines 240-249): process the text
line by line; a line whose stripped form starts with `#` is dropped; any
other line is truncated at its first `#` (`line.split('#', 1)[0]`); the
kept lines are re-joined with `\n`. -/
def remove_comments_from_content (content : String) : String :=
  String.intercalate "\n"
    ((pySplitlines content.data).filterMap (fun line =>
      if (line.dropWhile isPySpace).head? = some hashChar then none
      else if hashChar ∈ line then some (String.mk (line.takeWhile (fun c => c ≠ hashChar)))
      else some (String.mk line)))

/-- Scanning loop of `_extract_braced_block` (src lines 251-262): walk the
characters with a brace-depth counter (starting at `depth`); `{` increments
and `}` decrements; when the depth would reach 0 return the characters
scanned so far (the text strictly inside the block); `none` when the text
ends first.  Returning the scanned prefix is the same as Python's
`content[start_pos:i]` slice. -/
def extractBlockAux : Nat → List Char → Option (List Char)
  | _, [] => none
  | depth, c :: rest =>
    if c = lbrace then (extractBlockAux (depth + 1) rest).map (fun l => c :: l)
    else if c = rbrace then
      if depth = 1 then some []
      else (extractBlockAux (depth - 1) rest).map (fun l => c :: l)
    else (extractBlockAux depth rest).map (fun l => c :: l)

/-- `_extract_braced_block` (src lines 251-262): `start_pos` is just past an
opening brace; return the text up to the matching closing brace, or `""`
when the braces never balance. -/
def extract_braced_block (content : String) (start_pos : Nat) : String :=
  match extractBlockAux 1 (content.data.drop start_pos) with
  | some l => String.mk l
  | none => ""

/-! ## Data model

`Technology` mirrors the dataclass of the same name (src lines 15-34); the
`__post_init__` flag seeding is part of `makeTechnology` below.  The entity
store (`self.all_technologies`, an insertion-ordered dict keyed by
`tech_id`) is modelled as the list of its values in insertion order; keys
are the `tech_id` fields. -/

structure Technology where
  tech_id : String
  research_area : String := ""
  tier_level : Nat := 0
  prerequisite_tech_ids : List String := []
  unlocked_tech_ids : List String := []
  is_dangerous_tech : Bool := false
  is_repeatable_tech : Bool := false
  research_cost : String := ""
  tech_categories : List String := []
  unlock_conditions : List String := []
  deriving Repr, DecidableEq

abbrev Store := List Technology

def lookupTech (s : Store) (id : String) : Option Technology :=
  s.find? (fun t => t.tech_id == id)

/-- `tech_id in self.all_technologies`. -/
def isStored (s : Store) (id : String) : Prop :=
  ∃ t ∈ s, t.tech_id = id

instance (s : Store) (id : String) : Decidable (isStored s id) := by
  unfold isStored; infer_instance

/-- Substring containment, for Python's `"repeatable" in self.tech_id`. -/
def startsWithL : List Char → List Char → Bool
  | [], _ => true
  | _ :: _, [] => false
  | p :: ps, c :: cs => p = c && startsWithL ps cs

def hasSubstrL (pat : List Char) : List Char → Bool
  | [] => startsWithL pat []
  | c :: rest => startsWithL pat (c :: rest) || hasSubstrL pat rest

/-- The fixed hazardous-identifier set of `Technology.__post_init__`. -/
def dangerous_tech_list : List String :=
  ["tech_synthetic_workers", "tech_sapient_ai", "tech_positronic_ai",
   "tech_mega_engineering", "tech_colossus", "tech_juggernaut"]

/-- `Technology(tech_id)` including `__post_init__` (src lines 28-34). -/
def makeTechnology (tech_id : String) : Technology :=
  { tech_id := tech_id,
    is_dangerous_tech := tech_id ∈ dangerous_tech_list,
    is_repeatable_tech := hasSubstrL "repeatable".data tech_id.data }

/-! ## Record scanner

`TECH_DEFINITION_REGEX = (?m)^(\w+)\s*=\s*\{` scanned with `finditer`:
try the pattern at every line start (string start or just after `\n`);
after a hit, scanning resumes right after the `{`. -/

/-- Try `(\w+)\s*=\s*\{` at the current position; on success return the
identifier and the text after the opening brace. -/
def tryTechDef (cs : List Char) : Option (String × List Char) :=
  let idCs := cs.takeWhile isWordChar
  if idCs.isEmpty then none
  else
    match (cs.dropWhile isWordChar).dropWhile isPySpace with
    | c :: r3 =>
      if c = '=' then
        match r3.dropWhile isPySpace with
        | d :: r5 => if d = lbrace then some (String.mk idCs, r5) else none
        | [] => none
      else none
    | [] => none

theorem dropWhileLenLe {α : Type} (p : α → Bool) :
    ∀ l : List α, (l.dropWhile p).length ≤ l.length := by
  intro l
  induction l with
  | nil => simp [List.dropWhile]
  | cons a l ih => by_cases h : p a <;> simp [List.dropWhile, h] <;> omega

theorem tryTechDef_length {cs : List Char} {id : String} {after : List Char}
    (h : tryTechDef cs = some (id, after)) : after.length < cs.length := by
  unfold tryTechDef at h
  by_cases he : (cs.takeWhile isWordChar).isEmpty
  · rw [if_pos he] at h; exact absurd h (by simp)
  · rw [if_neg he] at h
    have h1 : (cs.dropWhile isWordChar).length < cs.length := by
      cases cs with
      | nil => simp [List.takeWhile] at he
      | cons c rest =>
        by_cases hw : isWordChar c
        · simpa [List.dropWhile, hw] using Nat.lt_succ_of_le (dropWhileLenLe isWordChar rest)
        · simp [List.takeWhile, hw] at he
    cases h2 : (cs.dropWhile isWordChar).dropWhile isPySpace with
    | nil => simp [h2] at h
    | cons c r3 =>
      simp only [h2] at h
      by_cases hc : c = '='
      · rw [if_pos hc] at h
        cases h3 : r3.dropWhile isPySpace with
        | nil => simp [h3] at h
        | cons d r5 =>
          simp only [h3] at h
          by_cases hd : d = lbrace
          · rw [if_pos hd] at h
            have h4 : (c :: r3).length ≤ (cs.dropWhile isWordChar).length := by
              rw [← h2]; exact dropWhileLenLe _ _
            have h5 : (d :: r5).length ≤ r3.length := by
              rw [← h3]; exact dropWhileLenLe _ _
            have h6 : after = r5 := by
              have h7 := (Option.some.injEq _ _).mp h
              exact (congrArg Prod.snd h7).symm
            subst h6
            simp only [List.length_cons] at h4 h5
            omega
          · rw [if_neg hd] at h; exact absurd h (by simp)
      · rw [if_neg hc] at h; exact absurd h (by simp)

/-- The `finditer` scan over `TECH_DEFINITION_REGEX`: `atLineStart` says
whether the current position starts a line (`(?m)^`).  Produces, in text
order, each matched identifier together with the text after its `{`.
Structural recursion on a fuel that bounds the characters left (each step
consumes at least one character: `tryTechDef_length`), so that the scan
evaluates inside the kernel; `findTechDefs` supplies enough fuel. -/
def findTechDefsF : Nat → Bool → List Char → List (String × List Char)
  | 0, _, _ => []
  | _ + 1, _, [] => []
  | fuel + 1, atLS, c :: rest =>
    if atLS then
      match tryTechDef (c :: rest) with
      | some (id, after) => (id, after) :: findTechDefsF fuel false after
      | none => findTechDefsF fuel (c = '\n') rest
    else findTechDefsF fuel (c = '\n') rest

def findTechDefs (atLS : Bool) (cs : List Char) : List (String × List Char) :=
  findTechDefsF (cs.length + 1) atLS cs

/-! ## Field parsers

Each field regex of `_parse_tech_block_content` (src lines 264-295) is a
pattern tried at every position of the block, leftmost match first, like
`re.search` / `re.findall`. -/

/-- `re.search`: try the matcher at every position; leftmost success wins. -/
def searchFirst {α : Type} (p : List Char → Option α) : List Char → Option α
  | [] => p []
  | c :: rest =>
    match p (c :: rest) with
    | some a => some a
    | none => searchFirst p rest

/-- Match a literal character sequence, returning the rest of the text. -/
def matchLit : List Char → List Char → Option (List Char)
  | [], cs => some cs
  | _ :: _, [] => none
  | k :: ks, c :: cs => if c = k then matchLit ks cs else none

/-- Match `<key>\s*=\s*`, returning the text after the `=` and spaces. -/
def matchKeyEq (key : List Char) (cs : List Char) : Option (List Char) :=
  (matchLit key cs).bind (fun r1 =>
    match r1.dropWhile isPySpace with
    | c :: r2 => if c = '=' then some (r2.dropWhile isPySpace) else none
    | [] => none)

/-- `<key>\s*=\s*(\w+)` at the current position. -/
def pWordAfterKey (key : String) (cs : List Char) : Option String :=
  (matchKeyEq key.data cs).bind (fun r =>
    let w := r.takeWhile isWordChar
    if w.isEmpty then none else some (String.mk w))

/-- Decimal digits to a number, as `int()` applied to a `(\d+)` capture. -/
def digitsToNat (w : List Char) : Nat :=
  w.foldl (fun n c => 10 * n + (c.toNat - 48)) 0

/-- `<key>\s*=\s*(\d+)` at the current position. -/
def pNatAfterKey (key : String) (cs : List Char) : Option Nat :=
  (matchKeyEq key.data cs).bind (fun r =>
    let w := r.takeWhile Char.isDigit
    if w.isEmpty then none else some (digitsToNat w))

/-- `<key>\s*=\s*\{` at the current position; on a hit the braced block is
extracted exactly as `_extract_braced_block` does (empty on unbalanced
braces). -/
def pBraceAfterKey (key : String) (cs : List Char) : Option (List Char) :=
  (matchKeyEq key.data cs).bind (fun r =>
    match r with
    | d :: r5 =>
      if d = lbrace then some ((extractBlockAux 1 r5).getD []) else none
    | [] => none)

/-- `(?:potential|starting_potential)\s*=\s*\{`: regex alternation tries the
left alternative first at each position. -/
def pPotentialPat (cs : List Char) : Option (List Char) :=
  match pBraceAfterKey "potential" cs with
  | some b => some b
  | none => pBraceAfterKey "starting_potential" cs

def isCostChar (c : Char) : Bool := c = '@' || isWordChar c

/-- `cost\s*=\s*([@\w\d]+)` at the current position. -/
def pCostPat (cs : List Char) : Option String :=
  (matchKeyEq "cost".data cs).bind (fun r =>
    let w := r.takeWhile isCostChar
    if w.isEmpty then none else some (String.mk w))

/-- `<key>\s*=\s*yes` at the current position (the `is_dangerous`,
`is_repeatable` and `start_tech` markers). -/
def pKeyYes (key : String) (cs : List Char) : Option Unit :=
  (matchKeyEq key.data cs).bind (fun r => (matchLit "yes".data r).map (fun _ => ()))

/-- `TECH_ID_REGEX.findall`: tokens of `"([^"]+)"|(\w+)`, taking the quoted
text when the quoted alternative matched and the bare word otherwise. -/
def techIdTokensF : Nat → List Char → List String
  | 0, _ => []
  | _ + 1, [] => []
  | fuel + 1, c :: rest =>
    if c = dquoteChar then
      (let body := rest.takeWhile (fun x => x ≠ dquoteChar)
       if body.isEmpty then techIdTokensF fuel rest
       else
         match rest.dropWhile (fun x => x ≠ dquoteChar) with
         | _ :: rem2 => String.mk body :: techIdTokensF fuel rem2
         | [] => techIdTokensF fuel rest)
    else if isWordChar c then
      String.mk ((c :: rest).takeWhile isWordChar) :: techIdTokensF fuel (rest.dropWhile isWordChar)
    else techIdTokensF fuel rest

def techIdTokens (cs : List Char) : List String := techIdTokensF (cs.length + 1) cs

/-- `WORD_REGEX.findall`: all maximal `[\w_]+` runs. -/
def wordTokensF : Nat → List Char → List String
  | 0, _ => []
  | _ + 1, [] => []
  | fuel + 1, c :: rest =>
    if isWordChar c then
      String.mk ((c :: rest).takeWhile isWordChar) :: wordTokensF fuel (rest.dropWhile isWordChar)
    else wordTokensF fuel rest

def wordTokens (cs : List Char) : List String := wordTokensF (cs.length + 1) cs

/-- `_parse_tech_block_content` (src lines 264-295): fill the entity's
fields from its block text, in source order; `start_tech = yes` forces the
prerequisite list empty; the two boolean flags are OR-ed with the values
seeded by `__post_init__`. -/
def parse_tech_block_content (tech : Technology) (content : String) : Technology :=
  let cs := content.data
  let t1 := match searchFirst (pWordAfterKey "area") cs with
    | some a => { tech with research_area := a }
    | none => tech
  let t2 := match searchFirst (pNatAfterKey "tier") cs with
    | some n => { t1 with tier_level := n }
    | none => t1
  let t3 := match searchFirst (pBraceAfterKey "prerequisites") cs with
    | some blk => { t2 with prerequisite_tech_ids := techIdTokens blk }
    | none => t2
  let t4 := if (searchFirst (pKeyYes "start_tech") cs).isSome then
      { t3 with prerequisite_tech_ids := [] }
    else t3
  let t5 := match searchFirst pCostPat cs with
    | some cst => { t4 with research_cost := cst }
    | none => t4
  let t6 := match searchFirst (pBraceAfterKey "category") cs with
    | some blk => { t5 with tech_categories := wordTokens blk }
    | none => t5
  let t7 := match searchFirst pPotentialPat cs with
    | some blk => { t6 with unlock_conditions := wordTokens blk }
    | none => t6
  { t7 with
    is_dangerous_tech := t7.is_dangerous_tech || (searchFirst (pKeyYes "is_dangerous") cs).isSome,
    is_repeatable_tech := t7.is_repeatable_tech || (searchFirst (pKeyYes "is_repeatable") cs).isSome }

/-- The record list of one file: every `TECH_DEFINITION_REGEX` match with
its extracted block (`""` when the braces are unbalanced). -/
def techRecords (content : String) : List (String × String) :=
  (findTechDefs true content.data).map (fun p =>
    (p.1, match extractBlockAux 1 p.2 with
          | some l => String.mk l
          | none => ""))

/-- `_parse_single_tech_file` (src lines 215-229) on already-read file
content: strip comments, then for each matched record commit a new entity
only when the block is non-empty and the identifier is not already stored
(first definition wins). -/
def parseRecordStep (s : Store) (r : String × String) : Store :=
  if r.2 ≠ "" ∧ ¬ isStored s r.1 then
    s ++ [parse_tech_block_content (makeTechnology r.1) r.2]
  else s

def parse_single_tech_file (store : Store) (content : String) : Store :=
  if content = "" then store
  else
    (techRecords (remove_comments_from_content content)).foldl parseRecordStep store

/-! ## Graph builder and reachability sizer -/

/-- `self.all_technologies[tid].unlocked_tech_ids` (empty when `tid` is not
stored; every use in the source is guarded by a store-membership test). -/
def succsOf (s : Store) (id : String) : List String :=
  match lookupTech s id with
  | some t => t.unlocked_tech_ids
  | none => []

/-- The update applied to the entry keyed `prereqId`: append `techId` to
its successor list unless already present (src lines 451-452). -/
def entryStep (techId : String) (prereqId : String) (t : Technology) : Technology :=
  if t.tech_id = prereqId then
    if techId ∈ t.unlocked_tech_ids then t
    else { t with unlocked_tech_ids := t.unlocked_tech_ids ++ [techId] }
  else t

/-- One inner step of `build_technology_tree_relationships` (src lines
445-452): if `prereqId` is stored, append `techId` to its successor list
unless already present.  The store is a list, so the dict update is a `map`
touching the (unique) entry whose key is `prereqId`. -/
def build_step (s : Store) (techId : String) (prereqId : String) : Store :=
  if isStored s prereqId then s.map (entryStep techId prereqId) else s

/-- `build_technology_tree_relationships` (src lines 445-452): for every
entity `A` in store order, for every prerequisite `P` of `A` in list order,
append `A`'s identifier to `P`'s successor list.  The iteration reads only
the identifiers and prerequisite lists, which no step changes, so it is
taken over a snapshot of those pairs. -/
def build_technology_tree_relationships (s : Store) : Store :=
  (s.map (fun t => (t.tech_id, t.prerequisite_tech_ids))).foldl
    (fun acc p => p.2.foldl (fun acc2 pr => build_step acc2 p.1 pr) acc) s

/-- The distinct stored identifiers, for fuel computations. -/
def storedIds (s : Store) : List String := (s.map (fun t => t.tech_id)).dedup

def totalSuccLen (s : Store) : Nat :=
  ((storedIds s).map (fun tid => (succsOf s tid).length)).sum

/-- The `while stack` loop of `_count_unique_successors` (src lines
455-467), returning the final visited set (as a duplicate-free list).  The
Python list-stack pops from the end, so it is held here top-first: the
initial stack is reversed and `stack.extend(xs)` pushes `xs.reverse`.
`fuel` bounds the iteration count; every call below supplies enough fuel
for the loop to run to completion (`countLoopFuel_spec`). -/
def countVisitLoop (store : Store) : Nat → List String → List String → List String
  | 0, visited, _ => visited
  | _ + 1, visited, [] => visited
  | fuel + 1, visited, tid :: rest =>
    if tid ∈ visited ∨ ¬ isStored store tid then countVisitLoop store fuel visited rest
    else countVisitLoop store fuel (tid :: visited) ((succsOf store tid).reverse ++ rest)

def countFuel (store : Store) (tech_id : String) : Nat :=
  (succsOf store tech_id).length + totalSuccLen store + 1

/-- `_count_unique_successors` (src lines 455-467): iterative reachability
count over successor edges with a visited set; 0 for an unknown root. -/
def count_unique_successors (store : Store) (tech_id : String) : Nat :=
  if isStored store tech_id then
    (countVisitLoop store (countFuel store tech_id) [] (succsOf store tech_id).reverse).length
  else 0

def LONG_TREE_THRESHOLD : Nat := 100

/-- `_precompute_overlong_trees` (src lines 470-476): the identifiers whose
reachable-successor count exceeds the threshold. -/
def precompute_overlong_trees (store : Store) : List String :=
  (store.map (fun t => t.tech_id)).filter
    (fun tid => LONG_TREE_THRESHOLD < count_unique_successors store tid)

/-! ## Tree renderer -/

/-- `RESEARCH_AREA_ICONS.get(area, "")` (src lines 40-44). -/
def RESEARCH_AREA_ICONS (area : String) : String :=
  if area = "physics" then "£physics£"
  else if area = "engineering" then "£engineering£"
  else if area = "society" then "£society£"
  else ""

/-- `LOCALIZATION_STRINGS` (src lines 53-70) as a keyed table; `none` for a
key or language outside the table. -/
def LOCALIZATION_STRINGS (lang_code key : String) : Option String :=
  if lang_code = "english" then
    if key = "title" then some "Technology Tree"
    else if key = "top_level" then some "Maximum Level Reached"
    else if key = "requires" then some "Requires"
    else if key = "tier_label" then some "Tier:"
    else if key = "already_shown" then some "already shown above"
    else if key = "skip_long_tree" then
      some "Too many follow-up technologies. Not displayed for performance."
    else none
  else if lang_code = "simp_chinese" then
    if key = "title" then some "科技树"
    else if key = "top_level" then some "已达到顶级"
    else if key = "requires" then some "还需"
    else if key = "tier_label" then some "级别:"
    else if key = "already_shown" then some "已在上方展示"
    else if key = "skip_long_tree" then some "后续科技太多，性能原因不做展示"
    else none
  else none

/-- `LOCALIZATION_STRINGS[lang][key]` (indexing; the claims never exercise
a missing key, modelled as `""`). -/
def locIndex (lang key : String) : String := (LOCALIZATION_STRINGS lang key).getD ""

/-- `LOCALIZATION_STRINGS[lang].get(key, dflt)`. -/
def locGetD (lang key dflt : String) : String := (LOCALIZATION_STRINGS lang key).getD dflt

/-- `"    " * indent_level`. -/
def indentStr (n : Nat) : String := String.mk (List.replicate (4 * n) ' ')

/-- The colour-coded entry text shared by `_format_tech_tree_entry`'s main
line and its `requires` clause (src lines 488-493 and 502-507): priority
hazardous > (tier ≥ 5 or repeatable) > default.  `squoteStr` is `'`. -/
def formatColored (tid : String) (t : Technology) : String :=
  let icon := RESEARCH_AREA_ICONS t.research_area
  let colour := if t.is_dangerous_tech then "§R"
    else if 5 ≤ t.tier_level || t.is_repeatable_tech then "§M"
    else "§W"
  "(" ++ toString t.tier_level ++ ")[" ++ squoteStr ++ "technology:" ++ tid ++ squoteStr
    ++ ", " ++ icon ++ colour ++ "$" ++ tid ++ "$§!]"

/-- `_format_tech_tree_entry` (src lines 478-517): one rendered line for a
stored entity (`""` for an unknown identifier), with the inline
`requires`-also clause when a current prerequisite context is given and the
entity has more than one prerequisite. -/
def format_tech_tree_entry (store : Store) (tech_id : String) (indent_level : Nat)
    (current_prereq : Option String) (lang_code : String) : String :=
  match lookupTech store tech_id with
  | none => ""
  | some tech =>
    let formatted := formatColored tech_id tech
    let additional :=
      match current_prereq with
      | some cp =>
        if cp ≠ "" ∧ 1 < tech.prerequisite_tech_ids.length then
          tech.prerequisite_tech_ids.filterMap (fun p =>
            if p ≠ cp then (lookupTech store p).map (fun pt => formatColored p pt)
            else none)
        else []
      | none => []
    let entry := indentStr indent_level ++ "|--" ++ formatted
    if additional.isEmpty then entry
    else entry ++ " [§R" ++ locIndex lang_code "requires" ++ "§! "
      ++ String.intercalate " , " additional ++ "]"

/-- Python string comparison (code-point lexicographic), written so that it
evaluates inside the kernel. -/
def strLtL : List Char → List Char → Bool
  | [], [] => false
  | [], _ :: _ => true
  | _ :: _, [] => false
  | a :: as, b :: bs =>
    if a.toNat < b.toNat then true
    else if b.toNat < a.toNat then false
    else strLtL as bs

/-- The sort key of the renderer (src lines 540-542):
`(all_technologies.get(tid, Technology(tid)).tier_level, tid)`. -/
def sortKey (store : Store) (tid : String) : Nat × String :=
  (((lookupTech store tid).getD (makeTechnology tid)).tier_level, tid)

/-- `≤` on sort keys: tier first, then identifier, as Python tuple order. -/
def keyLe (store : Store) (a b : String) : Bool :=
  let ka := sortKey store a
  let kb := sortKey store b
  ka.1 < kb.1 || (ka.1 = kb.1 && !(strLtL kb.2.data ka.2.data))

/-- Stable insertion of `a` into `l` (after every `b ≼ a`). -/
def orderedInsertLe {α : Type} (le : α → α → Bool) (a : α) : List α → List α
  | [] => [a]
  | b :: l => if le b a then b :: orderedInsertLe le a l else a :: b :: l

/-- Python's stable `sorted`, as a left-fold insertion sort (each element
is inserted after earlier elements with an equal key).  In the renderer the
key determines the element (it contains the identifier itself), so any
sort by `keyLe` equals Python's. -/
def pySorted {α : Type} (le : α → α → Bool) (l : List α) : List α :=
  l.foldl (fun acc a => orderedInsertLe le a acc) []

/-- The suffix appended on a re-encounter:
`f"{base_line} §g({already_shown_text})§!"`. -/
def alreadyShownSuffix (lang_code : String) : String :=
  " §g(" ++ locGetD lang_code "already_shown" "already shown" ++ ")§!"

/-- The `for unlock_id in unlocked_techs` loop of `_build_tech_subtree`
(src lines 546-558), abstracted over the recursive call `recur` (which
receives the successor and the grown expanded set).  Returns the collected
lines and the final expanded set; `none` only when `recur` returns `none`. -/
def buildSubtreeLoop (store : Store) (recur : String → List String → Option (List String × List String))
    (tech_id : String) (depth : Nat) (lang_code : String) (path : List String) :
    List String → List String → Option (List String × List String)
  | [], exp => some ([], exp)
  | u :: rest, exp =>
    let base := format_tech_tree_entry store u (depth + 1) (some tech_id) lang_code
    if base = "" then buildSubtreeLoop store recur tech_id depth lang_code path rest exp
    else if u ∈ exp ∨ u ∈ path then
      (buildSubtreeLoop store recur tech_id depth lang_code path rest exp).map
        (fun r => ((base ++ alreadyShownSuffix lang_code) :: r.1, r.2))
    else
      match recur u (u :: exp) with
      | none => none
      | some (sub, exp2) =>
        (buildSubtreeLoop store recur tech_id depth lang_code path rest exp2).map
          (fun r => (base :: (sub ++ r.1), r.2))

/-- `_build_tech_subtree` (src lines 519-561), with a fuel parameter in
place of unbounded recursion (`none` = fuel exhausted; `subtreeFuel` below
always suffices).  `path` carries the identifiers on the current descent
(`path_set`, restored on exit, hence a parameter), `exp` the per-rendering
expanded set (`expanded_set`, threaded through).  The unused
`parent_tech_id` parameter of the source is dropped. -/
def build_tech_subtree (store : Store) :
    Nat → String → Nat → String → List String → List String →
    Option (List String × List String)
  | 0, _, _, _, _, _ => none
  | fuel + 1, tech_id, current_depth, lang_code, path, exp =>
    if ¬ isStored store tech_id then some ([], exp)
    else if tech_id ∈ path then some ([], exp)
    else
      let sorted := pySorted (keyLe store) (succsOf store tech_id)
      buildSubtreeLoop store
        (fun u exp2 =>
          build_tech_subtree store fuel u (current_depth + 1) lang_code (tech_id :: path) exp2)
        tech_id current_depth lang_code (tech_id :: path) sorted exp

def subtreeFuel (store : Store) : Nat := (storedIds store).length + 1

/-- `generate_tech_tree_content` (src lines 563-579): empty for an unknown
root; the oversized-tree warning for a precomputed overlong root; otherwise
the rendered walk (or the maximum-level fragment when it yields no lines).
The walk is run with provably sufficient fuel (`build_tech_subtree_total`),
so the `none` arm is unreachable. -/
def generate_tech_tree_content (store : Store) (tech_id : String)
    (lang_code : String) : String :=
  if ¬ isStored store tech_id then ""
  else if tech_id ∈ precompute_overlong_trees store then
    "\\n\\n§H$technology_tree_title$§!" ++ "\\n§R" ++ locIndex lang_code "skip_long_tree" ++ "§!"
  else
    match build_tech_subtree store (subtreeFuel store) tech_id 0 lang_code [] [] with
    | some (tree_lines, _) =>
      if tree_lines.isEmpty then
        "\\n\\n§H$technology_tree_title$§!\\n§Y$tech_tree_max_level$§!"
      else
        "\\n\\n§H$technology_tree_title$§!" ++ "\\n" ++ String.intercalate "\\n" tree_lines
    | none => ""

/-! ## Cycle detector -/

/-- `dfs_detect_cycle` inside `detect_circular_dependencies` (src lines
659-694).  `recSt` is the recursion-stack set and `path` the output path;
both are extended on entry and restored on exit in the source, hence
parameters; `(cycles, visited)` persist across calls, hence threaded state.
Children receive `path.copy()`, i.e. the list value.  Fuel bounds the
recursion depth (`detectFuel` below always suffices on the stores used). -/
def dfs_detect_cycle (store : Store) :
    Nat → String → List String → List String →
    List (List String) × List String → List (List String) × List String
  | 0, _, _, _, st => st
  | fuel + 1, tech_id, recSt, path, (cycles, visited) =>
    if tech_id ∈ recSt then
      let cycle_start := path.indexOf tech_id
      (cycles ++ [path.drop cycle_start ++ [tech_id]], visited)
    else if tech_id ∈ visited ∨ ¬ isStored store tech_id then (cycles, visited)
    else
      (succsOf store tech_id).foldl
        (fun st u => dfs_detect_cycle store fuel u (tech_id :: recSt) (path ++ [tech_id]) st)
        (cycles, tech_id :: visited)

def detectFuel (store : Store) : Nat := store.length + 1

/-- `detect_circular_dependencies` (src lines 659-694): run the DFS from
every stored identifier not yet globally visited, in store order, and
collect the recorded cycles. -/
def detect_circular_dependencies (store : Store) : List (List String) :=
  ((store.map (fun t => t.tech_id)).foldl
    (fun st tid =>
      if tid ∈ st.2 then st
      else dfs_detect_cycle store (detectFuel store) tid [] [] st)
    ([], [])).1

/-! ## Comment stripper: C8 -/

theorem filterMap_eq_map_filter {α β : Type} (f : α → Option β) (p : α → Bool) (g : α → β)
    (h : ∀ a, f a = if p a then some (g a) else none) :
    ∀ l : List α, l.filterMap f = (l.filter p).map g := by
  intro l
  induction l with
  | nil => simp
  | cons a l ih =>
    by_cases hp : p a
    · rw [List.filterMap_cons, h a, if_pos hp, List.filter_cons_of_pos hp, List.map_cons, ih]
    · rw [List.filterMap_cons, h a, if_neg hp,
        List.filter_cons_of_neg (by simpa using hp), ih]

theorem takeWhile_ne_of_not_mem {c : Char} {l : List Char} (h : c ∉ l) :
    l.takeWhile (fun x => !decide (x = c)) = l :=
  List.takeWhile_eq_self_iff.mpr (fun x hx => by
    simp only [Bool.not_eq_true', decide_eq_false_iff_not]
    exact fun he => h (he ▸ hx))

/-- C8: for every input text, the comment stripper drops entirely each line
whose first non-whitespace character is `#`, and keeps of every other line
exactly the text before its first `#` (there is no escaping mechanism, so
every `#` is a comment marker). -/
theorem remove_comments_from_content_spec (content : String) :
    remove_comments_from_content content
      = String.intercalate "\n"
          (((pySplitlines content.data).filter
              (fun l => ¬ (l.dropWhile isPySpace).head? = some hashChar)).map
            (fun l => String.mk (l.takeWhile (fun c => c ≠ hashChar)))) := by
  unfold remove_comments_from_content
  congr 1
  apply filterMap_eq_map_filter
  intro l
  by_cases hd : (l.dropWhile isPySpace).head? = some hashChar
  · simp [hd]
  · by_cases hm : hashChar ∈ l
    · simp [hd, hm]
    · simp [hd, hm, takeWhile_ne_of_not_mem hm]

/-! ## Block extractor: C9

The matching closing brace is characterised by counting: scanning from just
past the opening brace with starting depth `d`, the depth reaches 0 first
at the least index `i` such that the closing braces among the first `i + 1`
characters outnumber the opening ones by exactly `d`. -/

def braceHit (d : Nat) (cs : List Char) (i : Nat) : Prop :=
  (cs.take (i + 1)).count rbrace = (cs.take (i + 1)).count lbrace + d

instance (d : Nat) (cs : List Char) (i : Nat) : Decidable (braceHit d cs i) := by
  unfold braceHit; infer_instance

theorem lbrace_ne_rbrace : lbrace ≠ rbrace := by decide

theorem braceHit_zero (d : Nat) (c : Char) (rest : List Char) :
    braceHit d (c :: rest) 0 ↔ [c].count rbrace = [c].count lbrace + d := by
  unfold braceHit
  simp

theorem braceHit_succ (d : Nat) (c : Char) (rest : List Char) (i : Nat) :
    braceHit d (c :: rest) (i + 1) ↔
      (c :: rest.take (i + 1)).count rbrace = (c :: rest.take (i + 1)).count lbrace + d := by
  unfold braceHit
  rw [List.take_succ_cons]

theorem braceHit_succ_lbrace (d : Nat) (rest : List Char) (i : Nat) :
    braceHit d (lbrace :: rest) (i + 1) ↔ braceHit (d + 1) rest i := by
  rw [braceHit_succ]
  unfold braceHit
  rw [List.count_cons_of_ne (Ne.symm lbrace_ne_rbrace), List.count_cons_self]
  omega

theorem braceHit_succ_rbrace (d : Nat) (rest : List Char) (i : Nat) (hd : 1 ≤ d) :
    braceHit d (rbrace :: rest) (i + 1) ↔ braceHit (d - 1) rest i := by
  rw [braceHit_succ]
  unfold braceHit
  rw [List.count_cons_self, List.count_cons_of_ne lbrace_ne_rbrace]
  omega

theorem braceHit_succ_other (d : Nat) (c : Char) (rest : List Char) (i : Nat)
    (h1 : c ≠ lbrace) (h2 : c ≠ rbrace) :
    braceHit d (c :: rest) (i + 1) ↔ braceHit d rest i := by
  rw [braceHit_succ]
  unfold braceHit
  rw [List.count_cons_of_ne (Ne.symm h2), List.count_cons_of_ne (Ne.symm h1)]

theorem extractBlockAux_none {d : Nat} (hd : 1 ≤ d) {cs : List Char}
    (h : extractBlockAux d cs = none) : ∀ i, ¬ braceHit d cs i := by
  induction cs generalizing d with
  | nil =>
    intro i hi
    unfold braceHit at hi
    simp at hi
    omega
  | cons c rest ih =>
    intro i hi
    unfold extractBlockAux at h
    by_cases hl : c = lbrace
    · rw [if_pos hl] at h
      have h2 : extractBlockAux (d + 1) rest = none := by
        cases h3 : extractBlockAux (d + 1) rest with
        | none => rfl
        | some out => rw [h3] at h; simp at h
      cases i with
      | zero =>
        rw [hl, braceHit_zero] at hi
        rw [List.count_cons_of_ne (Ne.symm lbrace_ne_rbrace), List.count_cons_self] at hi
        simp at hi
        omega
      | succ i =>
        rw [hl, braceHit_succ_lbrace] at hi
        exact ih (by omega) h2 i hi
    · rw [if_neg hl] at h
      by_cases hr : c = rbrace
      · rw [if_pos hr] at h
        by_cases hd1 : d = 1
        · rw [if_pos hd1] at h; simp at h
        · rw [if_neg hd1] at h
          have h2 : extractBlockAux (d - 1) rest = none := by
            cases h3 : extractBlockAux (d - 1) rest with
            | none => rfl
            | some out => rw [h3] at h; simp at h
          cases i with
          | zero =>
            rw [hr, braceHit_zero] at hi
            rw [List.count_cons_self, List.count_cons_of_ne lbrace_ne_rbrace] at hi
            simp at hi
            omega
          | succ i =>
            rw [hr, braceHit_succ_rbrace _ _ _ hd] at hi
            exact ih (by omega) h2 i hi
      · rw [if_neg hr] at h
        have h2 : extractBlockAux d rest = none := by
          cases h3 : extractBlockAux d rest with
          | none => rfl
          | some out => rw [h3] at h; simp at h
        cases i with
        | zero =>
          rw [braceHit_zero] at hi
          rw [List.count_cons_of_ne (Ne.symm hr), List.count_cons_of_ne (Ne.symm hl)] at hi
          simp at hi
          omega
        | succ i =>
          rw [braceHit_succ_other _ _ _ _ hl hr] at hi
          exact ih hd h2 i hi

theorem extractBlockAux_some {d : Nat} (hd : 1 ≤ d) {cs out : List Char}
    (h : extractBlockAux d cs = some out) :
    ∃ i, braceHit d cs i ∧ (∀ j < i, ¬ braceHit d cs j) ∧ out = cs.take i
      ∧ cs.get? i = some rbrace := by
  induction cs generalizing d out with
  | nil => simp [extractBlockAux] at h
  | cons c rest ih =>
    unfold extractBlockAux at h
    by_cases hl : c = lbrace
    · rw [if_pos hl] at h
      cases h3 : extractBlockAux (d + 1) rest with
      | none => rw [h3] at h; simp at h
      | some out1 =>
        rw [h3] at h
        simp only [Option.map_some', Option.some.injEq] at h
        obtain ⟨i, hi, hmin, hout, hget⟩ := ih (by omega) h3
        refine ⟨i + 1, ?_, ?_, ?_, ?_⟩
        · rw [hl, braceHit_succ_lbrace]; exact hi
        · intro j hj
          cases j with
          | zero =>
            rw [hl, braceHit_zero]
            rw [List.count_cons_of_ne (Ne.symm lbrace_ne_rbrace), List.count_cons_self]
            simp
            omega
          | succ j =>
            rw [hl, braceHit_succ_lbrace]
            exact hmin j (by omega)
        · rw [← h, hout, List.take_succ_cons]
        · simpa using hget
    · rw [if_neg hl] at h
      by_cases hr : c = rbrace
      · rw [if_pos hr] at h
        by_cases hd1 : d = 1
        · rw [if_pos hd1] at h
          simp only [Option.some.injEq] at h
          refine ⟨0, ?_, by omega, by simp [← h], by simp [hr]⟩
          rw [hr, braceHit_zero]
          rw [List.count_cons_self, List.count_cons_of_ne lbrace_ne_rbrace]
          simp
          omega
        · rw [if_neg hd1] at h
          cases h3 : extractBlockAux (d - 1) rest with
          | none => rw [h3] at h; simp at h
          | some out1 =>
            rw [h3] at h
            simp only [Option.map_some', Option.some.injEq] at h
            obtain ⟨i, hi, hmin, hout, hget⟩ := ih (by omega) h3
            refine ⟨i + 1, ?_, ?_, ?_, ?_⟩
            · rw [hr, braceHit_succ_rbrace _ _ _ hd]; exact hi
            · intro j hj
              cases j with
              | zero =>
                rw [hr, braceHit_zero]
                rw [List.count_cons_self, List.count_cons_of_ne lbrace_ne_rbrace]
                simp
                omega
              | succ j =>
                rw [hr, braceHit_succ_rbrace _ _ _ hd]
                exact hmin j (by omega)
            · rw [← h, hout, List.take_succ_cons]
            · simpa using hget
      · rw [if_neg hr] at h
        cases h3 : extractBlockAux d rest with
        | none => rw [h3] at h; simp at h
        | some out1 =>
          rw [h3] at h
          simp only [Option.map_some', Option.some.injEq] at h
          obtain ⟨i, hi, hmin, hout, hget⟩ := ih hd h3
          refine ⟨i + 1, ?_, ?_, ?_, ?_⟩
          · rw [braceHit_succ_other _ _ _ _ hl hr]; exact hi
          · intro j hj
            cases j with
            | zero =>
              rw [braceHit_zero]
              rw [List.count_cons_of_ne (Ne.symm hr), List.count_cons_of_ne (Ne.symm hl)]
              simp
              omega
            | succ j =>
              rw [braceHit_succ_other _ _ _ _ hl hr]
              exact hmin j (by omega)
          · rw [← h, hout, List.take_succ_cons]
          · simpa using hget

/-- C9: for every text and every offset just past an opening brace, the
Block Extractor returns the substring strictly up to the matching closing
brace — the first position where, scanning with nesting depth starting at
1, the depth reaches 0 — and returns the empty string when the depth never
reaches 0 before the end of the text. -/
theorem extract_braced_block_spec (content : String) (start_pos : Nat) :
    (∀ i, braceHit 1 (content.data.drop start_pos) i →
      (∀ j < i, ¬ braceHit 1 (content.data.drop start_pos) j) →
      extract_braced_block content start_pos
          = String.mk ((content.data.drop start_pos).take i)
        ∧ (content.data.drop start_pos).get? i = some rbrace)
    ∧ ((∀ i, ¬ braceHit 1 (content.data.drop start_pos) i) →
      extract_braced_block content start_pos = "") := by
  constructor
  · intro i hi hmin
    cases h : extractBlockAux 1 (content.data.drop start_pos) with
    | none => exact absurd hi (extractBlockAux_none (by omega) h i)
    | some out =>
      obtain ⟨i2, hi2, hmin2, hout2, hget2⟩ := extractBlockAux_some (by omega) h
      have hii : i = i2 := by
        rcases Nat.lt_trichotomy i i2 with hlt | heq | hgt
        · exact absurd hi (hmin2 i hlt)
        · exact heq
        · exact absurd hi2 (hmin i2 hgt)
      subst hii
      constructor
      · unfold extract_braced_block
        rw [h, hout2]
      · exact hget2
  · intro hnone
    cases h : extractBlockAux 1 (content.data.drop start_pos) with
    | none => unfold extract_braced_block; rw [h]
    | some out =>
      obtain ⟨i2, hi2, _, _, _⟩ := extractBlockAux_some (by omega) h
      exact absurd hi2 (hnone i2)

/-- A sample text `a{b}c}z` for the extractor (braces built by
concatenation). -/
def c9sample : String :=
  "a" ++ String.mk [lbrace] ++ "b" ++ String.mk [rbrace] ++ "c" ++ String.mk [rbrace] ++ "z"

theorem extract_braced_block_spec_witness :
    extract_braced_block c9sample 0 = String.mk ((c9sample.data.drop 0).take 5)
      ∧ (c9sample.data.drop 0).get? 5 = some rbrace :=
  (extract_braced_block_spec c9sample 0).1 5 (by decide) (by decide)

/-! ## Parser state: C7 and C10 -/

theorem makeTechnology_id (id : String) : (makeTechnology id).tech_id = id := rfl

theorem parse_tech_block_content_id (t : Technology) (c : String) :
    (parse_tech_block_content t c).tech_id = t.tech_id := by
  unfold parse_tech_block_content
  dsimp only
  repeat' split
  all_goals rfl

theorem isStored_append_left {s : Store} {sfx : Store} {id : String}
    (h : isStored s id) : isStored (s ++ sfx) id := by
  obtain ⟨t, ht, hid⟩ := h
  exact ⟨t, List.mem_append_left _ ht, hid⟩

theorem parseRecordStep_append (s : Store) (r : String × String) :
    ∃ sfx, parseRecordStep s r = s ++ sfx := by
  unfold parseRecordStep
  by_cases h : r.2 ≠ "" ∧ ¬ isStored s r.1
  · exact ⟨_, if_pos h⟩
  · exact ⟨[], by rw [if_neg h, List.append_nil]⟩

theorem foldl_parseRecordStep_append (l : List (String × String)) :
    ∀ s : Store, ∃ sfx, l.foldl parseRecordStep s = s ++ sfx := by
  induction l with
  | nil => exact fun s => ⟨[], by simp⟩
  | cons r l ih =>
    intro s
    obtain ⟨e, he⟩ := parseRecordStep_append s r
    obtain ⟨sfx, hsfx⟩ := ih (parseRecordStep s r)
    exact ⟨e ++ sfx, by rw [List.foldl_cons, hsfx, he, List.append_assoc]⟩

theorem foldl_parseRecordStep_stored (l : List (String × String)) :
    ∀ s : Store, ∀ id b, (id, b) ∈ l → b ≠ "" →
      isStored (l.foldl parseRecordStep s) id := by
  induction l with
  | nil => intro s id b h; exact absurd h (List.not_mem_nil _)
  | cons r l ih =>
    intro s id b hmem hb
    rcases List.mem_cons.mp hmem with heq | hl
    · have hstep : isStored (parseRecordStep s r) id := by
        unfold parseRecordStep
        by_cases hg : r.2 ≠ "" ∧ ¬ isStored s r.1
        · rw [if_pos hg]
          refine ⟨parse_tech_block_content (makeTechnology r.1) r.2, by simp, ?_⟩
          rw [parse_tech_block_content_id, makeTechnology_id, ← heq]
        · rw [if_neg hg]
          rw [not_and_or, not_not, not_not] at hg
          rcases hg with hg | hg
          · exact absurd (by rw [← heq] at hg; exact hg) hb
          · rw [← heq] at hg; exact hg
      rw [List.foldl_cons]
      obtain ⟨sfx, hsfx⟩ := foldl_parseRecordStep_append l (parseRecordStep s r)
      rw [hsfx]
      exact isStored_append_left hstep
    · exact ih (parseRecordStep s r) id b hl hb

theorem foldl_parseRecordStep_fixed (l : List (String × String)) :
    ∀ s : Store, (∀ id b, (id, b) ∈ l → b ≠ "" → isStored s id) →
      l.foldl parseRecordStep s = s := by
  induction l with
  | nil => intro s _; rfl
  | cons r l ih =>
    intro s h
    have hstep : parseRecordStep s r = s := by
      unfold parseRecordStep
      rw [if_neg]
      rw [not_and_or, not_not, not_not]
      by_cases hb : r.2 = ""
      · exact Or.inl hb
      · exact Or.inr (h r.1 r.2 (by simp) hb)
    rw [List.foldl_cons, hstep]
    exact ih s (fun id b hm hb => h id b (List.mem_cons_of_mem _ hm) hb)

/-- C7: parsing the same content a second time leaves the Entity Store
exactly as it was after the first parse, and a stored entity is never
changed by any later parse of a record with the same identifier (the store
only ever grows by appending fresh entities). -/
theorem parse_single_tech_file_idempotent (store : Store) (content : String) :
    parse_single_tech_file (parse_single_tech_file store content) content
        = parse_single_tech_file store content
    ∧ ∀ id t, lookupTech store id = some t →
        lookupTech (parse_single_tech_file store content) id = some t := by
  constructor
  · unfold parse_single_tech_file
    by_cases hc : content = ""
    · rw [if_pos hc, if_pos hc]
    · rw [if_neg hc, if_neg hc]
      apply foldl_parseRecordStep_fixed
      intro id b hm hb
      exact foldl_parseRecordStep_stored _ _ _ _ hm hb
  · intro id t ht
    unfold parse_single_tech_file
    by_cases hc : content = ""
    · rw [if_pos hc]; exact ht
    · rw [if_neg hc]
      obtain ⟨sfx, hsfx⟩ :=
        foldl_parseRecordStep_append (techRecords (remove_comments_from_content content)) store
      rw [hsfx]
      unfold lookupTech at ht ⊢
      rw [List.find?_append, ht, Option.or_some]

def c7store : Store := [makeTechnology "tech_pre"]

/-- Sample content: a fresh record plus a duplicate of the stored id. -/
def c7sample : String :=
  "tech_x = " ++ String.mk [lbrace] ++ " tier = 3 " ++ String.mk [rbrace]
    ++ "\ntech_pre = " ++ String.mk [lbrace] ++ " tier = 9 " ++ String.mk [rbrace] ++ "\n"

theorem parse_single_tech_file_idempotent_witness :
    parse_single_tech_file (parse_single_tech_file c7store c7sample) c7sample
        = parse_single_tech_file c7store c7sample
    ∧ lookupTech (parse_single_tech_file c7store c7sample) "tech_pre"
        = some (makeTechnology "tech_pre") :=
  ⟨(parse_single_tech_file_idempotent c7store c7sample).1,
   (parse_single_tech_file_idempotent c7store c7sample).2 "tech_pre"
     (makeTechnology "tech_pre") (by decide)⟩

theorem parseRecordStep_stored_iff (s : Store) (r : String × String) (id : String) :
    isStored (parseRecordStep s r) id ↔
      isStored s id ∨ (r.1 = id ∧ r.2 ≠ "") := by
  unfold parseRecordStep
  by_cases hg : r.2 ≠ "" ∧ ¬ isStored s r.1
  · rw [if_pos hg]
    constructor
    · rintro ⟨t, ht, hid⟩
      rcases List.mem_append.mp ht with hs | hnew
      · exact Or.inl ⟨t, hs, hid⟩
      · right
        have : t = parse_tech_block_content (makeTechnology r.1) r.2 := by simpa using hnew
        subst this
        rw [parse_tech_block_content_id, makeTechnology_id] at hid
        exact ⟨hid, hg.1⟩
    · rintro (hs | ⟨hid, _⟩)
      · exact isStored_append_left hs
      · exact ⟨parse_tech_block_content (makeTechnology r.1) r.2, by simp,
          by rw [parse_tech_block_content_id, makeTechnology_id, hid]⟩
  · rw [if_neg hg]
    rw [not_and_or, not_not, not_not] at hg
    constructor
    · exact Or.inl
    · rintro (hs | ⟨hid, hb⟩)
      · exact hs
      · rcases hg with hg | hg
        · exact absurd hg hb
        · exact hid ▸ hg

theorem foldl_parseRecordStep_stored_iff (l : List (String × String)) :
    ∀ s : Store, ∀ id,
      isStored (l.foldl parseRecordStep s) id ↔
        isStored s id ∨ ∃ b, (id, b) ∈ l ∧ b ≠ "" := by
  induction l with
  | nil => intro s id; simp
  | cons r l ih =>
    intro s id
    rw [List.foldl_cons, ih, parseRecordStep_stored_iff]
    constructor
    · rintro ((hs | ⟨hid, hb⟩) | ⟨b, hm, hb⟩)
      · exact Or.inl hs
      · exact Or.inr ⟨r.2, by simp [← hid], hb⟩
      · exact Or.inr ⟨b, List.mem_cons_of_mem _ hm, hb⟩
    · rintro (hs | ⟨b, hm, hb⟩)
      · exact Or.inl (Or.inl hs)
      · rcases List.mem_cons.mp hm with heq | hl
        · subst heq
          exact Or.inl (Or.inr ⟨rfl, hb⟩)
        · exact Or.inr ⟨b, hl, hb⟩

/-- C10: an identifier is stored after a parse exactly when it was stored
before or some record for it has a non-empty extracted block; in
particular a well-formed record with an empty body (`id = {}`) is never
committed, exactly like one with unbalanced braces. -/
theorem parse_stored_iff_nonempty_block (store : Store) (content : String) (id : String) :
    isStored (parse_single_tech_file store content) id ↔
      isStored store id
        ∨ ∃ b, (id, b) ∈ techRecords (remove_comments_from_content content) ∧ b ≠ "" := by
  unfold parse_single_tech_file
  by_cases hc : content = ""
  · rw [if_pos hc]
    subst hc
    constructor
    · exact Or.inl
    · rintro (hs | ⟨b, hm, _⟩)
      · exact hs
      · rw [show techRecords (remove_comments_from_content "") = [] from rfl] at hm
        exact absurd hm (List.not_mem_nil _)
  · rw [if_neg hc]
    exact foldl_parseRecordStep_stored_iff _ store id

/-! ## Oversized roots: C5 -/

theorem isStored_iff_mem_map (s : Store) (id : String) :
    isStored s id ↔ id ∈ s.map (fun t => t.tech_id) := by
  unfold isStored
  rw [List.mem_map]

theorem count_eq_zero_of_not_stored (store : Store) (id : String)
    (h : ¬ isStored store id) : count_unique_successors store id = 0 := by
  unfold count_unique_successors
  rw [if_neg h]

theorem mem_precompute_overlong_iff (store : Store) (id : String) :
    id ∈ precompute_overlong_trees store ↔
      isStored store id ∧ LONG_TREE_THRESHOLD < count_unique_successors store id := by
  unfold precompute_overlong_trees
  rw [List.mem_filter, ← isStored_iff_mem_map]
  simp

/-- C5: a root whose precomputed reachable-successor count exceeds the
fixed threshold of 100 renders exactly the single oversized-tree warning
fragment — the tree walk is never entered, so no subtree line can occur. -/
theorem generate_overlong_warning (store : Store) (tech_id lang_code : String)
    (h : LONG_TREE_THRESHOLD < count_unique_successors store tech_id) :
    generate_tech_tree_content store tech_id lang_code
      = "\\n\\n§H$technology_tree_title$§!" ++ "\\n§R"
        ++ locIndex lang_code "skip_long_tree" ++ "§!" := by
  have hs : isStored store tech_id := by
    by_contra hns
    rw [count_eq_zero_of_not_stored store tech_id hns] at h
    exact absurd h (by decide)
  unfold generate_tech_tree_content
  rw [if_neg (not_not_intro hs)]
  rw [if_pos ((mem_precompute_overlong_iff store tech_id).mpr ⟨hs, h⟩)]

/-- 102 single-character identifiers forming a successor chain, so the
root's reachable count is 101 > 100. -/
def chainId (i : Nat) : String := String.mk [Char.ofNat (65 + i)]

def bigChainStore : Store :=
  (List.range 102).map (fun i =>
    { tech_id := chainId i,
      unlocked_tech_ids := if i + 1 < 102 then [chainId (i + 1)] else [] })

theorem generate_overlong_warning_witness :
    generate_tech_tree_content bigChainStore (chainId 0) "english"
      = "\\n\\n§H$technology_tree_title$§!" ++ "\\n§R"
        ++ locIndex "english" "skip_long_tree" ++ "§!" :=
  generate_overlong_warning bigChainStore (chainId 0) "english" (by decide)

/-! ## Cycle detector: C6 -/

def cycleStoreABC : Store :=
  [{ tech_id := "A", prerequisite_tech_ids := ["C"], unlocked_tech_ids := ["B"] },
   { tech_id := "B", prerequisite_tech_ids := ["A"], unlocked_tech_ids := ["C"] },
   { tech_id := "C", prerequisite_tech_ids := ["B"], unlocked_tech_ids := ["A"] }]

def selfLoopStoreA : Store :=
  [{ tech_id := "A", prerequisite_tech_ids := ["A"], unlocked_tech_ids := ["A"] }]

/-- C6: on the 3-node successor cycle A→B→C→A with the DFS rooted at A the
detector reports exactly the single cycle `[A, B, C, A]`; on the self-loop
A→A it reports exactly `[A, A]`. -/
theorem detect_circular_dependencies_examples :
    detect_circular_dependencies cycleStoreABC = [["A", "B", "C", "A"]]
    ∧ detect_circular_dependencies selfLoopStoreA = [["A", "A"]] := by
  constructor
  · decide
  · decide

/-! ## Reachability sizer: C1

The successor-edge relation of the finished graph: `a → b` when `b`
appears in the successor list of the stored entity `a` (an unknown `a` has
no edges). -/

def succEdge (s : Store) (a b : String) : Prop := b ∈ succsOf s a

theorem succEdge_stored {s : Store} {a b : String} (h : succEdge s a b) :
    isStored s a := by
  unfold succEdge succsOf at h
  cases hl : lookupTech s a with
  | none => rw [hl] at h; exact absurd h (List.not_mem_nil _)
  | some t =>
    refine ⟨t, List.mem_of_find?_eq_some hl, ?_⟩
    have := List.find?_some hl
    simpa using this

theorem mem_storedIds (s : Store) (id : String) :
    id ∈ storedIds s ↔ isStored s id := by
  unfold storedIds
  rw [List.mem_dedup, ← isStored_iff_mem_map]

/-- The stored identifiers not yet visited, with their total out-degree:
the loop's termination potential. -/
def remainingIds (store : Store) (visited : List String) : List String :=
  (storedIds store).filter (fun x => x ∉ visited)

def phi (store : Store) (visited stack : List String) : Nat :=
  stack.length
    + ((remainingIds store visited).map (fun tid => (succsOf store tid).length)).sum

theorem filter_not_mem_cons_of_not_mem {v : List String} {tid : String}
    {l : List String} (h : tid ∉ l) :
    l.filter (fun x => x ∉ tid :: v) = l.filter (fun x => x ∉ v) := by
  apply List.filter_congr
  intro a ha
  have hne : a ≠ tid := fun he => h (he ▸ ha)
  simp [List.mem_cons, hne]

theorem sum_filter_remove (f : String → Nat) (v : List String) (tid : String) :
    ∀ l : List String, l.Nodup → tid ∈ l → tid ∉ v →
      ((l.filter (fun x => x ∉ tid :: v)).map f).sum + f tid
        = ((l.filter (fun x => x ∉ v)).map f).sum := by
  intro l
  induction l with
  | nil => intro _ h; exact absurd h (List.not_mem_nil _)
  | cons a l ih =>
    intro hnd hmem hnv
    rcases List.mem_cons.mp hmem with rfl | hmem2
    · have h1 : tid ∉ l := (List.nodup_cons.mp hnd).1
      rw [List.filter_cons_of_neg (by simp), List.filter_cons_of_pos (by simpa using hnv)]
      rw [filter_not_mem_cons_of_not_mem h1]
      simp [Nat.add_comm]
    · have hne : a ≠ tid := fun he => ((List.nodup_cons.mp hnd).1 (he ▸ hmem2)).elim
      have ih2 := ih (List.nodup_cons.mp hnd).2 hmem2 hnv
      by_cases hav : a ∈ v
      · rw [List.filter_cons_of_neg (by simp [List.mem_cons, hav]),
          List.filter_cons_of_neg (by simp [hav])]
        exact ih2
      · rw [List.filter_cons_of_pos (by simp [List.mem_cons, hav, hne]),
          List.filter_cons_of_pos (by simp [hav])]
        simp only [List.map_cons, List.sum_cons]
        omega

theorem phi_visit (store : Store) (visited rest : List String) (tid : String)
    (hst : isStored store tid) (hnv : tid ∉ visited) :
    phi store (tid :: visited) ((succsOf store tid).reverse ++ rest) + 1
      = phi store visited (tid :: rest) := by
  unfold phi remainingIds
  have hsum : ((List.filter (fun x => x ∉ tid :: visited) (storedIds store)).map
        (fun t => (succsOf store t).length)).sum + (succsOf store tid).length
      = ((List.filter (fun x => x ∉ visited) (storedIds store)).map
        (fun t => (succsOf store t).length)).sum :=
    sum_filter_remove (fun t => (succsOf store t).length) visited tid
      (storedIds store) (List.nodup_dedup _) ((mem_storedIds store tid).mpr hst) hnv
  simp only [List.length_append, List.length_reverse, List.length_cons]
  omega

/-- Any stored node reachable (along stored nodes) from a visited node is
itself visited or reachable from an unvisited stack entry, provided every
stored successor of a visited node is visited or on the stack. -/
theorem visited_closure (store : Store) (visited stack : List String)
    (I4 : ∀ u ∈ visited, ∀ w ∈ succsOf store u, isStored store w → w ∈ visited ∨ w ∈ stack) :
    ∀ u v, u ∈ visited → Relation.ReflTransGen (succEdge store) u v → isStored store v →
      v ∈ visited ∨ ∃ s2 ∈ stack, s2 ∉ visited ∧ Relation.ReflTransGen (succEdge store) s2 v := by
  intro u v hu hpath hv
  induction hpath using Relation.ReflTransGen.head_induction_on with
  | refl => exact Or.inl hu
  | head h' hrest ih =>
    rename_i a c
    by_cases hcv : c ∈ visited
    · exact ih hcv
    · by_cases hcs : isStored store c
      · rcases I4 a hu c h' hcs with hc | hc
        · exact absurd hc hcv
        · exact Or.inr ⟨c, hc, hcv, hrest⟩
      · rcases Relation.ReflTransGen.cases_head hrest with rfl | ⟨d, hd, _⟩
        · exact absurd hv hcs
        · exact absurd (succEdge_stored hd) hcs

theorem countVisitLoop_cons (store : Store) (fuel : Nat) (visited : List String)
    (tid : String) (rest : List String) :
    countVisitLoop store (fuel + 1) visited (tid :: rest)
      = if tid ∈ visited ∨ ¬ isStored store tid then countVisitLoop store fuel visited rest
        else countVisitLoop store fuel (tid :: visited) ((succsOf store tid).reverse ++ rest) :=
  rfl

theorem countVisitLoop_spec (store : Store) :
    ∀ fuel visited stack,
      phi store visited stack < fuel →
      visited.Nodup →
      (∀ v ∈ visited, isStored store v) →
      (∀ u ∈ visited, ∀ w ∈ succsOf store u, isStored store w → w ∈ visited ∨ w ∈ stack) →
      (countVisitLoop store fuel visited stack).Nodup
      ∧ (∀ v, v ∈ countVisitLoop store fuel visited stack ↔
          v ∈ visited
            ∨ (isStored store v
                ∧ ∃ s2 ∈ stack, Relation.ReflTransGen (succEdge store) s2 v)) := by
  intro fuel
  induction fuel with
  | zero => intro visited stack hphi; exact absurd hphi (by omega)
  | succ fuel ih =>
    intro visited stack hphi hnd hvs I4
    cases stack with
    | nil =>
      refine ⟨hnd, fun v => ?_⟩
      show v ∈ visited ↔ _
      simp
    | cons tid rest =>
      rw [countVisitLoop_cons]
      by_cases hc : tid ∈ visited ∨ ¬ isStored store tid
      · rw [if_pos hc]
        have hphi2 : phi store visited rest < fuel := by
          unfold phi at hphi ⊢
          simp only [List.length_cons] at hphi
          omega
        have I4' : ∀ u ∈ visited, ∀ w ∈ succsOf store u,
            isStored store w → w ∈ visited ∨ w ∈ rest := by
          intro u hu w hw hws
          rcases I4 u hu w hw hws with h | h
          · exact Or.inl h
          · rcases List.mem_cons.mp h with rfl | h2
            · rcases hc with hc | hc
              · exact Or.inl hc
              · exact absurd hws hc
            · exact Or.inr h2
        obtain ⟨hnd2, hmem2⟩ := ih visited rest hphi2 hnd hvs I4'
        refine ⟨hnd2, fun v => ?_⟩
        rw [hmem2 v]
        constructor
        · rintro (h | ⟨hsv, s2, hs2, hpath⟩)
          · exact Or.inl h
          · exact Or.inr ⟨hsv, s2, List.mem_cons_of_mem _ hs2, hpath⟩
        · rintro (h | ⟨hsv, s2, hs2, hpath⟩)
          · exact Or.inl h
          · rcases List.mem_cons.mp hs2 with rfl | hs2r
            · rcases hc with hc | hc
              · rcases visited_closure store visited (s2 :: rest) I4 s2 v hc hpath hsv with
                  h2 | ⟨s3, hs3, hs3nv, hpath3⟩
                · exact Or.inl h2
                · rcases List.mem_cons.mp hs3 with rfl | hs3r
                  · exact absurd hc hs3nv
                  · exact Or.inr ⟨hsv, s3, hs3r, hpath3⟩
              · rcases Relation.ReflTransGen.cases_head hpath with rfl | ⟨d, hd, _⟩
                · exact absurd hsv hc
                · exact absurd (succEdge_stored hd) hc
            · exact Or.inr ⟨hsv, s2, hs2r, hpath⟩
      · rw [if_neg hc]
        push_neg at hc
        obtain ⟨hnv, hst⟩ := hc
        have hphi2 : phi store (tid :: visited) ((succsOf store tid).reverse ++ rest) < fuel := by
          have := phi_visit store visited rest tid hst hnv
          omega
        have hnd2 : (tid :: visited).Nodup := List.nodup_cons.mpr ⟨hnv, hnd⟩
        have hvs2 : ∀ v ∈ tid :: visited, isStored store v := by
          intro v hv
          rcases List.mem_cons.mp hv with rfl | hv2
          · exact hst
          · exact hvs v hv2
        have I4' : ∀ u ∈ tid :: visited, ∀ w ∈ succsOf store u, isStored store w →
            w ∈ tid :: visited ∨ w ∈ (succsOf store tid).reverse ++ rest := by
          intro u hu w hw hws
          rcases List.mem_cons.mp hu with rfl | hu2
          · exact Or.inr (List.mem_append_left _ (List.mem_reverse.mpr hw))
          · rcases I4 u hu2 w hw hws with h | h
            · exact Or.inl (List.mem_cons_of_mem _ h)
            · rcases List.mem_cons.mp h with rfl | h2
              · exact Or.inl (List.mem_cons_self _ _)
              · exact Or.inr (List.mem_append_right _ h2)
        obtain ⟨hnd3, hmem3⟩ := ih (tid :: visited) ((succsOf store tid).reverse ++ rest)
          hphi2 hnd2 hvs2 I4'
        refine ⟨hnd3, fun v => ?_⟩
        rw [hmem3 v]
        constructor
        · rintro (hv | ⟨hsv, s2, hs2, hpath⟩)
          · rcases List.mem_cons.mp hv with rfl | hv2
            · exact Or.inr ⟨hst, v, List.mem_cons_self _ _, Relation.ReflTransGen.refl⟩
            · exact Or.inl hv2
          · rcases List.mem_append.mp hs2 with hs2l | hs2r
            · refine Or.inr ⟨hsv, tid, List.mem_cons_self _ _, ?_⟩
              exact Relation.ReflTransGen.head (List.mem_reverse.mp hs2l) hpath
            · exact Or.inr ⟨hsv, s2, List.mem_cons_of_mem _ hs2r, hpath⟩
        · rintro (hv | ⟨hsv, s2, hs2, hpath⟩)
          · exact Or.inl (List.mem_cons_of_mem _ hv)
          · rcases List.mem_cons.mp hs2 with rfl | hs2r
            · rcases Relation.ReflTransGen.cases_head hpath with rfl | ⟨d, hd, hdpath⟩
              · exact Or.inl (List.mem_cons_self _ _)
              · refine Or.inr ⟨hsv, d, ?_, hdpath⟩
                exact List.mem_append_left _ (List.mem_reverse.mpr hd)
            · exact Or.inr ⟨hsv, s2, List.mem_append_right _ hs2r, hpath⟩

theorem remainingIds_nil (store : Store) : remainingIds store [] = storedIds store := by
  unfold remainingIds
  exact List.filter_eq_self.mpr (by simp)

/-- C1 (amended): for every root present in the store,
`_count_unique_successors` returns the number of distinct stored
identifiers reachable from the root by one or more successor edges.  This
set includes the root itself whenever the root lies on a cycle (the code
does not exclude the root), which is the one divergence from the claim as
written. -/
theorem count_unique_successors_spec (store : Store) (root : String)
    (h : isStored store root) :
    ∃ l : List String, l.Nodup
      ∧ (∀ v, v ∈ l ↔ (isStored store v ∧ Relation.TransGen (succEdge store) root v))
      ∧ count_unique_successors store root = l.length := by
  have hphi : phi store [] (succsOf store root).reverse < countFuel store root := by
    unfold phi countFuel totalSuccLen
    rw [remainingIds_nil]
    simp only [List.length_reverse]
    omega
  obtain ⟨hnd, hmem⟩ := countVisitLoop_spec store (countFuel store root) []
    (succsOf store root).reverse hphi List.nodup_nil (by simp) (by simp)
  refine ⟨countVisitLoop store (countFuel store root) [] (succsOf store root).reverse,
    hnd, fun v => ?_, ?_⟩
  · rw [hmem v]
    constructor
    · rintro (hv | ⟨hsv, s2, hs2, hpath⟩)
      · exact absurd hv (List.not_mem_nil _)
      · exact ⟨hsv, Relation.TransGen.head' (List.mem_reverse.mp hs2) hpath⟩
    · rintro ⟨hsv, hpath⟩
      obtain ⟨b, hb, hbpath⟩ := Relation.TransGen.head'_iff.mp hpath
      exact Or.inr ⟨hsv, b, List.mem_reverse.mpr hb, hbpath⟩
  · unfold count_unique_successors
    rw [if_pos h]

/-- The spec's self-referential entity: `E` with prerequisite list `[E]`,
whose successor list after graph building is `[E]`. -/
def selfLoopStoreE : Store :=
  [{ tech_id := "E", prerequisite_tech_ids := ["E"], unlocked_tech_ids := ["E"] }]

/-- C1 counterexample: the claim demands `reachableCount(E) = 0` for the
self-referential entity `E`, but the code counts the root itself when it
is reachable and returns 1. -/
theorem count_unique_successors_self_loop :
    count_unique_successors selfLoopStoreE "E" = 1 := by decide

/-- The spec's pure chain A→B→C→D (prerequisite lists authored, successor
lists as the Graph Builder derives them). -/
def chainStoreABCD : Store :=
  [{ tech_id := "A", unlocked_tech_ids := ["B"] },
   { tech_id := "B", prerequisite_tech_ids := ["A"], unlocked_tech_ids := ["C"] },
   { tech_id := "C", prerequisite_tech_ids := ["B"], unlocked_tech_ids := ["D"] },
   { tech_id := "D", prerequisite_tech_ids := ["C"] }]

theorem count_unique_successors_spec_witness :
    ∃ l : List String, l.Nodup
      ∧ (∀ v, v ∈ l ↔ (isStored chainStoreABCD v
          ∧ Relation.TransGen (succEdge chainStoreABCD) "A" v))
      ∧ count_unique_successors chainStoreABCD "A" = l.length :=
  count_unique_successors_spec chainStoreABCD "A" (by decide)

/-! ## Graph builder: C2

Every step of the builder only rewrites successor lists entry-wise, so the
whole pass acts independently on each store position; `entryPair` /
`simEntry` replay the updates a single entry receives. -/

def entryPair (s0 : Store) (t : Technology) (p : String × List String) : Technology :=
  p.2.foldl (fun t2 pr => if isStored s0 pr then entryStep p.1 pr t2 else t2) t

def simEntry (s0 : Store) (ps : List (String × List String)) (t : Technology) : Technology :=
  ps.foldl (entryPair s0) t

theorem entryStep_id (a b : String) (t : Technology) :
    (entryStep a b t).tech_id = t.tech_id := by
  unfold entryStep
  repeat' split
  all_goals rfl

theorem isStored_ext {s s0 : Store}
    (h : s.map (fun t => t.tech_id) = s0.map (fun t => t.tech_id)) (id : String) :
    isStored s id ↔ isStored s0 id := by
  rw [isStored_iff_mem_map, isStored_iff_mem_map, h]

theorem build_step_keys (s : Store) (a b : String) :
    (build_step s a b).map (fun t => t.tech_id) = s.map (fun t => t.tech_id) := by
  unfold build_step
  split
  · rw [List.map_map]
    apply List.map_congr_left
    intro t _
    exact entryStep_id a b t
  · rfl

theorem build_step_get (s0 s : Store)
    (hkeys : s.map (fun t => t.tech_id) = s0.map (fun t => t.tech_id))
    (a b : String) (n : Nat) :
    (build_step s a b).get? n
      = (s.get? n).map (fun t => if isStored s0 b then entryStep a b t else t) := by
  have hb := isStored_ext hkeys b
  unfold build_step
  by_cases hb0 : isStored s0 b
  · rw [if_pos (hb.mpr hb0), List.get?_map]
    cases h : s.get? n <;> simp [hb0]
  · rw [if_neg (fun hh => hb0 (hb.mp hh))]
    cases h : s.get? n <;> simp [hb0]

theorem foldl_build_step_spec (s0 : Store) (bid : String) :
    ∀ (prs : List String) (s : Store),
      s.map (fun t => t.tech_id) = s0.map (fun t => t.tech_id) →
      ((prs.foldl (fun acc2 pr => build_step acc2 bid pr) s).map (fun t => t.tech_id)
          = s0.map (fun t => t.tech_id))
      ∧ ∀ n, (prs.foldl (fun acc2 pr => build_step acc2 bid pr) s).get? n
          = (s.get? n).map (fun t => entryPair s0 t (bid, prs)) := by
  intro prs
  induction prs with
  | nil =>
    intro s hkeys
    refine ⟨hkeys, fun n => ?_⟩
    rw [List.foldl_nil]
    cases s.get? n <;> rfl
  | cons pr prs ih =>
    intro s hkeys
    have hkeys2 : (build_step s bid pr).map (fun t => t.tech_id)
        = s0.map (fun t => t.tech_id) := (build_step_keys s bid pr).trans hkeys
    obtain ⟨ihk, ihg⟩ := ih (build_step s bid pr) hkeys2
    refine ⟨ihk, fun n => ?_⟩
    rw [List.foldl_cons, ihg n, build_step_get s0 s hkeys bid pr n, Option.map_map]
    cases s.get? n <;> rfl

theorem foldl_build_spec (s0 : Store) :
    ∀ (ps : List (String × List String)) (s : Store),
      s.map (fun t => t.tech_id) = s0.map (fun t => t.tech_id) →
      ((ps.foldl (fun acc p => p.2.foldl (fun acc2 pr => build_step acc2 p.1 pr) acc) s).map
          (fun t => t.tech_id) = s0.map (fun t => t.tech_id))
      ∧ ∀ n, (ps.foldl (fun acc p => p.2.foldl (fun acc2 pr => build_step acc2 p.1 pr) acc)
            s).get? n
          = (s.get? n).map (simEntry s0 ps) := by
  intro ps
  induction ps with
  | nil =>
    intro s hkeys
    refine ⟨hkeys, fun n => ?_⟩
    rw [List.foldl_nil]
    cases s.get? n <;> rfl
  | cons p ps ih =>
    intro s hkeys
    obtain ⟨hk1, hg1⟩ := foldl_build_step_spec s0 p.1 p.2 s hkeys
    obtain ⟨ihk, ihg⟩ := ih (p.2.foldl (fun acc2 pr => build_step acc2 p.1 pr) s) hk1
    refine ⟨ihk, fun n => ?_⟩
    rw [List.foldl_cons, ihg n, hg1 n, Option.map_map]
    cases s.get? n <;> rfl

theorem entryPair_unlocked (s0 : Store) (bid : String) :
    ∀ (prs : List String) (t : Technology),
      (entryPair s0 t (bid, prs)).tech_id = t.tech_id
      ∧ (entryPair s0 t (bid, prs)).unlocked_tech_ids
        = if isStored s0 t.tech_id ∧ t.tech_id ∈ prs ∧ bid ∉ t.unlocked_tech_ids
          then t.unlocked_tech_ids ++ [bid] else t.unlocked_tech_ids := by
  intro prs
  induction prs with
  | nil =>
    intro t
    refine ⟨rfl, ?_⟩
    rw [if_neg (by simp)]
    rfl
  | cons pr prs ih =>
    intro t
    have hstep : entryPair s0 t (bid, pr :: prs)
        = entryPair s0 (if isStored s0 pr then entryStep bid pr t else t) (bid, prs) := rfl
    by_cases hc : isStored s0 pr ∧ t.tech_id = pr
    · by_cases hb : bid ∈ t.unlocked_tech_ids
      · have ht2 : (if isStored s0 pr then entryStep bid pr t else t) = t := by
          rw [if_pos hc.1]
          unfold entryStep
          rw [if_pos hc.2, if_pos hb]
        rw [hstep, ht2]
        obtain ⟨ihid, ihu⟩ := ih t
        refine ⟨ihid, ?_⟩
        rw [ihu, if_neg (by tauto), if_neg (by tauto)]
      · have ht2 : (if isStored s0 pr then entryStep bid pr t else t)
            = { t with unlocked_tech_ids := t.unlocked_tech_ids ++ [bid] } := by
          rw [if_pos hc.1]
          unfold entryStep
          rw [if_pos hc.2, if_neg hb]
        rw [hstep, ht2]
        obtain ⟨ihid, ihu⟩ := ih { t with unlocked_tech_ids := t.unlocked_tech_ids ++ [bid] }
        refine ⟨ihid, ?_⟩
        rw [ihu, if_neg (by simp)]
        rw [if_pos ⟨hc.2 ▸ hc.1, hc.2 ▸ List.mem_cons_self _ _, hb⟩]
    · have ht2 : (if isStored s0 pr then entryStep bid pr t else t) = t := by
        by_cases hs : isStored s0 pr
        · rw [if_pos hs]
          unfold entryStep
          rw [if_neg (fun he => hc ⟨hs, he⟩)]
        · rw [if_neg hs]
      rw [hstep, ht2]
      obtain ⟨ihid, ihu⟩ := ih t
      refine ⟨ihid, ?_⟩
      rw [ihu]
      by_cases hcond : isStored s0 t.tech_id ∧ t.tech_id ∈ prs ∧ bid ∉ t.unlocked_tech_ids
      · rw [if_pos hcond, if_pos ⟨hcond.1, List.mem_cons_of_mem _ hcond.2.1, hcond.2.2⟩]
      · rw [if_neg hcond, if_neg ?_]
        rintro ⟨h1, h2, h3⟩
        rcases List.mem_cons.mp h2 with he | h2r
        · exact hc ⟨he ▸ h1, he⟩
        · exact hcond ⟨h1, h2r, h3⟩

theorem simEntry_unlocked (s0 : Store) :
    ∀ (ps : List (String × List String)) (t : Technology),
      (∀ p ∈ ps, p.1 ∉ t.unlocked_tech_ids) →
      (ps.map Prod.fst).Nodup →
      isStored s0 t.tech_id →
      (simEntry s0 ps t).tech_id = t.tech_id
      ∧ (simEntry s0 ps t).unlocked_tech_ids
        = t.unlocked_tech_ids
            ++ (ps.filter (fun p => t.tech_id ∈ p.2)).map Prod.fst := by
  intro ps
  induction ps with
  | nil =>
    intro t _ _ _
    exact ⟨rfl, by simp [simEntry]⟩
  | cons p ps ih =>
    intro t hfresh hnd hst
    have hstep : simEntry s0 (p :: ps) t = simEntry s0 ps (entryPair s0 t p) := rfl
    have hp : p = (p.1, p.2) := rfl
    obtain ⟨hid, hu⟩ := entryPair_unlocked s0 p.1 p.2 t
    rw [← hp] at hid hu
    have hndtail : (ps.map Prod.fst).Nodup := by
      have h2 := hnd
      simp only [List.map_cons] at h2
      exact (List.nodup_cons.mp h2).2
    have hheadfst : p.1 ∉ ps.map Prod.fst := by
      have h2 := hnd
      simp only [List.map_cons] at h2
      exact (List.nodup_cons.mp h2).1
    have hbfresh : p.1 ∉ t.unlocked_tech_ids := hfresh p (List.mem_cons_self _ _)
    by_cases hmem : t.tech_id ∈ p.2
    · have hu2 : (entryPair s0 t p).unlocked_tech_ids
          = t.unlocked_tech_ids ++ [p.1] := by
        rw [hu, if_pos ⟨hst, hmem, hbfresh⟩]
      obtain ⟨ihid, ihu⟩ := ih (entryPair s0 t p)
        (by
          intro q hq
          rw [hu2]
          simp only [List.mem_append, List.mem_singleton]
          rintro (hql | hqr)
          · exact hfresh q (List.mem_cons_of_mem _ hq) hql
          · exact hheadfst (hqr ▸ List.mem_map_of_mem Prod.fst hq))
        hndtail
        (by rw [hid]; exact hst)
      constructor
      · rw [hstep, ihid, hid]
      · rw [hstep, ihu, hid, hu2,
          List.filter_cons_of_pos (by simpa using hmem), List.map_cons,
          List.append_assoc]
        rfl
    · have hu2 : (entryPair s0 t p).unlocked_tech_ids = t.unlocked_tech_ids := by
        rw [hu, if_neg (by tauto)]
      obtain ⟨ihid, ihu⟩ := ih (entryPair s0 t p)
        (by
          intro q hq
          rw [hu2]
          exact hfresh q (List.mem_cons_of_mem _ hq))
        hndtail
        (by rw [hid]; exact hst)
      constructor
      · rw [hstep, ihid, hid]
      · rw [hstep, ihu, hid, hu2,
          List.filter_cons_of_neg (by simpa using hmem)]

/-- C2: after the Graph Builder pass over a finished Entity Store (unique
identifiers, successor lists not yet populated), every entity `A` maps to
an entity with the same identifier whose successor list is exactly the
identifiers of the stored entities that list `A` as a prerequisite, in
store (first-discovery) order; it is duplicate-free, and membership agrees
with the prerequisite relation (dangling prerequisites, naming no stored
entity, contribute nothing by construction). -/
theorem build_relationships_spec (store : Store)
    (hnd : (store.map (fun t => t.tech_id)).Nodup)
    (hempty : ∀ t ∈ store, t.unlocked_tech_ids = []) :
    ∀ A ∈ store, ∃ A2,
      A2 ∈ build_technology_tree_relationships store
      ∧ A2.tech_id = A.tech_id
      ∧ A2.unlocked_tech_ids
          = (store.filter (fun B => A.tech_id ∈ B.prerequisite_tech_ids)).map
              (fun B => B.tech_id)
      ∧ A2.unlocked_tech_ids.Nodup
      ∧ (∀ B ∈ store, (B.tech_id ∈ A2.unlocked_tech_ids
            ↔ A.tech_id ∈ B.prerequisite_tech_ids)) := by
  intro A hA
  obtain ⟨n, hn⟩ := List.get?_of_mem hA
  obtain ⟨hkeys, hget⟩ := foldl_build_spec store
    (store.map (fun t => (t.tech_id, t.prerequisite_tech_ids))) store rfl
  have hbuilt : (build_technology_tree_relationships store).get? n
      = some (simEntry store (store.map (fun t => (t.tech_id, t.prerequisite_tech_ids))) A) := by
    unfold build_technology_tree_relationships
    rw [hget n, hn]
    rfl
  obtain ⟨hid, hu⟩ := simEntry_unlocked store
    (store.map (fun t => (t.tech_id, t.prerequisite_tech_ids))) A
    (fun p _ => by rw [hempty A hA]; exact List.not_mem_nil _)
    (by rw [List.map_map]; exact hnd)
    ⟨A, hA, rfl⟩
  have hfilter : (store.map (fun t => (t.tech_id, t.prerequisite_tech_ids))).filter
        (fun p => A.tech_id ∈ p.2)
      = (store.filter (fun B => A.tech_id ∈ B.prerequisite_tech_ids)).map
          (fun t => (t.tech_id, t.prerequisite_tech_ids)) := by
    rw [List.filter_map]
    rfl
  have hu2 : (simEntry store (store.map (fun t => (t.tech_id, t.prerequisite_tech_ids)))
        A).unlocked_tech_ids
      = (store.filter (fun B => A.tech_id ∈ B.prerequisite_tech_ids)).map
          (fun B => B.tech_id) := by
    rw [hu, hempty A hA, List.nil_append, hfilter, List.map_map]
    rfl
  have hnd2 : ((store.filter (fun B => A.tech_id ∈ B.prerequisite_tech_ids)).map
      (fun B => B.tech_id)).Nodup :=
    List.Nodup.sublist (List.Sublist.map _ (List.filter_sublist store)) hnd
  refine ⟨simEntry store (store.map (fun t => (t.tech_id, t.prerequisite_tech_ids))) A,
    List.get?_mem hbuilt, hid, hu2, hu2 ▸ hnd2, fun B hB => ?_⟩
  rw [hu2]
  constructor
  · intro hBmem
    rw [List.mem_map] at hBmem
    obtain ⟨B2, hB2mem, hB2id⟩ := hBmem
    rw [List.mem_filter] at hB2mem
    have heq : B2 = B := List.inj_on_of_nodup_map hnd hB2mem.1 hB hB2id
    have := hB2mem.2
    rw [heq] at this
    simpa using this
  · intro hpre
    exact List.mem_map_of_mem _ (List.mem_filter.mpr ⟨hB, by simpa using hpre⟩)

/-- The spec's scenario store, before the Graph Builder pass: A with no
prerequisites, B and C requiring A, D requiring B and C. -/
def diamondPreStore : Store :=
  [{ tech_id := "A" },
   { tech_id := "B", tier_level := 1, prerequisite_tech_ids := ["A"] },
   { tech_id := "C", tier_level := 1, prerequisite_tech_ids := ["A"] },
   { tech_id := "D", tier_level := 2, prerequisite_tech_ids := ["B", "C"] }]

theorem build_relationships_spec_witness :
    ∃ A2, A2 ∈ build_technology_tree_relationships diamondPreStore
      ∧ A2.tech_id = Technology.tech_id { tech_id := "A" }
      ∧ A2.unlocked_tech_ids
          = (diamondPreStore.filter
              (fun B => Technology.tech_id { tech_id := "A" } ∈ B.prerequisite_tech_ids)).map
              (fun B => B.tech_id)
      ∧ A2.unlocked_tech_ids.Nodup
      ∧ (∀ B ∈ diamondPreStore, (B.tech_id ∈ A2.unlocked_tech_ids
            ↔ Technology.tech_id { tech_id := "A" } ∈ B.prerequisite_tech_ids)) :=
  build_relationships_spec diamondPreStore (by decide) (by decide)
    { tech_id := "A" } (by decide)

/-! ## Tree renderer: C3 and C4 -/

theorem format_entry_stored {store : Store} {u : String} {d : Nat} {cp : Option String}
    {lang : String} (h : format_tech_tree_entry store u d cp lang ≠ "") :
    isStored store u := by
  unfold format_tech_tree_entry at h
  cases hl : lookupTech store u with
  | none => rw [hl] at h; exact absurd rfl h
  | some t =>
    refine ⟨t, List.mem_of_find?_eq_some hl, ?_⟩
    have := List.find?_some hl
    simpa using this

theorem lookupTech_isSome {store : Store} {u : String} (h : isStored store u) :
    ∃ t, lookupTech store u = some t := by
  obtain ⟨t, hmem, hid⟩ := h
  unfold lookupTech
  cases hfind : store.find? (fun t2 => t2.tech_id == u) with
  | some t2 => exact ⟨t2, rfl⟩
  | none =>
    exfalso
    have := List.find?_eq_none.mp hfind t hmem
    simp [hid] at this

theorem format_entry_ne_empty {store : Store} {u : String} {d : Nat} {cp : Option String}
    {lang : String} (h : isStored store u) :
    format_tech_tree_entry store u d cp lang ≠ "" := by
  obtain ⟨t, hl⟩ := lookupTech_isSome h
  unfold format_tech_tree_entry
  rw [hl]
  intro hempty
  dsimp only at hempty
  have h3 : ("|--" : String).length = 3 := rfl
  split at hempty
  · have hlen := congrArg String.length hempty
    simp only [String.length_append] at hlen
    rw [h3] at hlen
    simp at hlen
  · have hlen := congrArg String.length hempty
    simp only [String.length_append] at hlen
    rw [h3] at hlen
    simp at hlen

theorem build_tech_subtree_succ (store : Store) (fuel : Nat) (tech_id : String)
    (depth : Nat) (lang : String) (path exp : List String) :
    build_tech_subtree store (fuel + 1) tech_id depth lang path exp
      = if ¬ isStored store tech_id then some ([], exp)
        else if tech_id ∈ path then some ([], exp)
        else buildSubtreeLoop store
          (fun u exp2 => build_tech_subtree store fuel u (depth + 1) lang (tech_id :: path) exp2)
          tech_id depth lang (tech_id :: path)
          (pySorted (keyLe store) (succsOf store tech_id)) exp := rfl

theorem buildSubtreeLoop_cons_eq (store : Store)
    (recur : String → List String → Option (List String × List String))
    (tech_id : String) (depth : Nat) (lang : String) (path : List String)
    (u : String) (rest exp : List String) :
    buildSubtreeLoop store recur tech_id depth lang path (u :: rest) exp
      = (if format_tech_tree_entry store u (depth + 1) (some tech_id) lang = "" then
          buildSubtreeLoop store recur tech_id depth lang path rest exp
        else if u ∈ exp ∨ u ∈ path then
          (buildSubtreeLoop store recur tech_id depth lang path rest exp).map
            (fun r => ((format_tech_tree_entry store u (depth + 1) (some tech_id) lang
                ++ alreadyShownSuffix lang) :: r.1, r.2))
        else
          match recur u (u :: exp) with
          | none => none
          | some (sub, exp2) =>
            (buildSubtreeLoop store recur tech_id depth lang path rest exp2).map
              (fun r => (format_tech_tree_entry store u (depth + 1) (some tech_id) lang
                  :: (sub ++ r.1), r.2))) := rfl

theorem buildSubtreeLoop_post (store : Store)
    (recur : String → List String → Option (List String × List String))
    (hrec : ∀ u exp lines exp2,
      recur u (u :: exp) = some (lines, exp2) → (u :: exp).Nodup →
      (∀ x ∈ u :: exp, x ∈ exp2)
      ∧ (∀ x ∈ exp2, x ∈ u :: exp ∨ (isStored store x ∧ x ∉ u :: exp))
      ∧ exp2.Nodup)
    (tech_id : String) (depth : Nat) (lang : String) (path : List String) :
    ∀ (l : List String) (exp lines exp2 : List String),
      buildSubtreeLoop store recur tech_id depth lang path l exp = some (lines, exp2) →
      exp.Nodup →
      (∀ x ∈ exp, x ∈ exp2)
      ∧ (∀ x ∈ exp2, x ∈ exp ∨ (isStored store x ∧ x ∉ exp))
      ∧ exp2.Nodup := by
  intro l
  induction l with
  | nil =>
    intro exp lines exp2 hrun hnd
    have h2 : (([] : List String), exp) = (lines, exp2) :=
      (Option.some.injEq _ _).mp hrun
    have h3 : exp2 = exp := (congrArg Prod.snd h2).symm
    subst h3
    exact ⟨fun x hx => hx, fun x hx => Or.inl hx, hnd⟩
  | cons u rest ih =>
    intro exp lines exp2 hrun hnd
    rw [buildSubtreeLoop_cons_eq] at hrun
    by_cases hb : format_tech_tree_entry store u (depth + 1) (some tech_id) lang = ""
    · rw [if_pos hb] at hrun
      exact ih exp lines exp2 hrun hnd
    · rw [if_neg hb] at hrun
      have hst : isStored store u := format_entry_stored hb
      by_cases hmem : u ∈ exp ∨ u ∈ path
      · rw [if_pos hmem] at hrun
        cases h2 : buildSubtreeLoop store recur tech_id depth lang path rest exp with
        | none => rw [h2] at hrun; exact absurd hrun (by simp)
        | some r =>
          rw [h2] at hrun
          have h3 : exp2 = r.2 := by
            have h4 := (Option.some.injEq _ _).mp hrun
            exact (congrArg Prod.snd h4).symm
          subst h3
          exact ih exp r.1 r.2 (by rw [h2]) hnd
      · rw [if_neg hmem] at hrun
        have hu : u ∉ exp := fun hc => hmem (Or.inl hc)
        cases h2 : recur u (u :: exp) with
        | none => rw [h2] at hrun; exact absurd hrun (by simp)
        | some p =>
          obtain ⟨sub, expMid⟩ := p
          rw [h2] at hrun
          dsimp only at hrun
          obtain ⟨hsub1, hfresh1, hnd1⟩ := hrec u exp sub expMid (by rw [h2])
            (List.nodup_cons.mpr ⟨hu, hnd⟩)
          cases h3 : buildSubtreeLoop store recur tech_id depth lang path rest expMid with
          | none => rw [h3] at hrun; exact absurd hrun (by simp)
          | some r =>
            rw [h3] at hrun
            have h4 : exp2 = r.2 := by
              have h5 := (Option.some.injEq _ _).mp hrun
              exact (congrArg Prod.snd h5).symm
            subst h4
            obtain ⟨hsub2, hfresh2, hnd2⟩ := ih expMid r.1 r.2 (by rw [h3]) hnd1
            refine ⟨?_, ?_, hnd2⟩
            · intro x hx
              exact hsub2 x (hsub1 x (List.mem_cons_of_mem _ hx))
            · intro x hx
              rcases hfresh2 x hx with hx2 | ⟨hxs, hx2⟩
              · rcases hfresh1 x hx2 with hx3 | ⟨hxs, hx3⟩
                · rcases List.mem_cons.mp hx3 with rfl | hx4
                  · exact Or.inr ⟨hst, hu⟩
                  · exact Or.inl hx4
                · exact Or.inr ⟨hxs, fun hc => hx3 (List.mem_cons_of_mem _ hc)⟩
              · refine Or.inr ⟨hxs, fun hc => ?_⟩
                exact hx2 (hsub1 x (List.mem_cons_of_mem _ hc))

theorem build_tech_subtree_post (store : Store) :
    ∀ fuel tech_id depth lang path exp lines exp2,
      build_tech_subtree store fuel tech_id depth lang path exp = some (lines, exp2) →
      exp.Nodup →
      (∀ x ∈ exp, x ∈ exp2)
      ∧ (∀ x ∈ exp2, x ∈ exp ∨ (isStored store x ∧ x ∉ exp))
      ∧ exp2.Nodup := by
  intro fuel
  induction fuel with
  | zero =>
    intro tech_id depth lang path exp lines exp2 hrun
    exact absurd hrun (by simp [build_tech_subtree])
  | succ fuel ih =>
    intro tech_id depth lang path exp lines exp2 hrun hnd
    rw [build_tech_subtree_succ] at hrun
    by_cases h1 : ¬ isStored store tech_id
    · rw [if_pos h1] at hrun
      have h3 : exp2 = exp :=
        (congrArg Prod.snd ((Option.some.injEq _ _).mp hrun)).symm
      subst h3
      exact ⟨fun x hx => hx, fun x hx => Or.inl hx, hnd⟩
    · rw [if_neg h1] at hrun
      by_cases h2 : tech_id ∈ path
      · rw [if_pos h2] at hrun
        have h3 : exp2 = exp :=
          (congrArg Prod.snd ((Option.some.injEq _ _).mp hrun)).symm
        subst h3
        exact ⟨fun x hx => hx, fun x hx => Or.inl hx, hnd⟩
      · rw [if_neg h2] at hrun
        exact buildSubtreeLoop_post store _
          (fun u e lines2 e2 hr hnd2 => ih u (depth + 1) lang (tech_id :: path)
            (u :: e) lines2 e2 hr hnd2)
          tech_id depth lang (tech_id :: path) _ exp lines exp2 hrun hnd

/-- C3: within one rendering invocation, every node is fully expanded at
most once — the per-rendering expanded set stays duplicate-free and only
ever gains stored, not-yet-expanded identifiers — and a stored successor
re-encountered while on the current path or already expanded contributes
exactly one line carrying the already-shown annotation, with no descent
(the recursion argument `recur` is never invoked on it, whatever it is). -/
theorem subtree_expands_once (store : Store) :
    (∀ fuel tech_id depth lang path exp lines exp2,
        build_tech_subtree store fuel tech_id depth lang path exp = some (lines, exp2) →
        exp.Nodup →
        exp2.Nodup ∧ (∀ x ∈ exp, x ∈ exp2)
          ∧ (∀ x ∈ exp2, x ∈ exp ∨ (isStored store x ∧ x ∉ exp)))
    ∧ (∀ (recur : String → List String → Option (List String × List String))
          tech_id depth lang path u rest exp,
        isStored store u → (u ∈ exp ∨ u ∈ path) →
        buildSubtreeLoop store recur tech_id depth lang path (u :: rest) exp
          = (buildSubtreeLoop store recur tech_id depth lang path rest exp).map
              (fun r => ((format_tech_tree_entry store u (depth + 1) (some tech_id) lang
                  ++ alreadyShownSuffix lang) :: r.1, r.2))) := by
  constructor
  · intro fuel tech_id depth lang path exp lines exp2 hrun hnd
    obtain ⟨hsub, hfresh, hnd2⟩ :=
      build_tech_subtree_post store fuel tech_id depth lang path exp lines exp2 hrun hnd
    exact ⟨hnd2, hsub, hfresh⟩
  · intro recur tech_id depth lang path u rest exp hst hmem
    rw [buildSubtreeLoop_cons_eq]
    rw [if_neg (format_entry_ne_empty hst), if_pos hmem]

/-- The spec's diamond A→{B,C}→D after graph building, for concrete runs
of the renderer. -/
def diamondStore : Store :=
  [{ tech_id := "A", unlocked_tech_ids := ["B", "C"] },
   { tech_id := "B", tier_level := 1, prerequisite_tech_ids := ["A"],
     unlocked_tech_ids := ["D"] },
   { tech_id := "C", tier_level := 1, prerequisite_tech_ids := ["A"],
     unlocked_tech_ids := ["D"] },
   { tech_id := "D", tier_level := 2, prerequisite_tech_ids := ["B", "C"] }]

theorem subtree_expands_once_witness :
    (∃ r, build_tech_subtree diamondStore 5 "A" 0 "english" [] [] = some r ∧ r.2.Nodup)
    ∧ buildSubtreeLoop diamondStore (fun _ _ => none) "A" 0 "english" ["A"] ["D"] ["D"]
        = (buildSubtreeLoop diamondStore (fun _ _ => none) "A" 0 "english" ["A"] [] ["D"]).map
            (fun r => ((format_tech_tree_entry diamondStore "D" 1 (some "A") "english"
                ++ alreadyShownSuffix "english") :: r.1, r.2)) := by
  constructor
  · obtain ⟨p, hp⟩ : ∃ p, build_tech_subtree diamondStore 5 "A" 0 "english" [] [] = some p :=
      ⟨_, rfl⟩
    refine ⟨p, hp, ?_⟩
    exact ((subtree_expands_once diamondStore).1 5 "A" 0 "english" [] [] p.1 p.2
      (by rw [hp]) (by decide)).1
  · exact (subtree_expands_once diamondStore).2 (fun _ _ => none) "A" 0 "english"
      ["A"] "D" [] ["D"] (by decide) (by decide)

theorem filter_length_mono {p q : String → Bool} (himp : ∀ x, p x = true → q x = true) :
    ∀ l : List String, (l.filter p).length ≤ (l.filter q).length := by
  intro l
  induction l with
  | nil => simp
  | cons a l ih =>
    by_cases hp : p a
    · rw [List.filter_cons_of_pos hp, List.filter_cons_of_pos (himp a hp)]
      simpa using ih
    · rw [List.filter_cons_of_neg (by simpa using hp)]
      by_cases hq : q a
      · rw [List.filter_cons_of_pos hq]
        simp only [List.length_cons]
        omega
      · rw [List.filter_cons_of_neg (by simpa using hq)]
        exact ih

theorem remainingIds_mono (store : Store) {exp exp2 : List String}
    (h : ∀ x ∈ exp, x ∈ exp2) :
    (remainingIds store exp2).length ≤ (remainingIds store exp).length := by
  unfold remainingIds
  apply filter_length_mono
  intro x hx
  simp only [decide_eq_true_eq] at hx ⊢
  exact fun hc => hx (h x hc)

theorem filter_not_mem_cons_length_lt (v : List String) (tid : String) :
    ∀ l : List String, l.Nodup → tid ∈ l → tid ∉ v →
      (l.filter (fun x => x ∉ tid :: v)).length < (l.filter (fun x => x ∉ v)).length := by
  intro l hnd hmem hnv
  have hsum := sum_filter_remove (fun _ => 1) v tid l hnd hmem hnv
  have hlen : ∀ l2 : List String, (l2.map (fun _ => 1)).sum = l2.length := by
    intro l2
    induction l2 with
    | nil => rfl
    | cons a l2 ih =>
      simp only [List.map_cons, List.sum_cons, ih, List.length_cons]
      omega
  have hb : ((fun (_ : String) => 1) tid) = 1 := rfl
  rw [hlen, hlen, hb] at hsum
  omega

theorem remainingIds_cons_lt (store : Store) {exp : List String} {u : String}
    (hst : isStored store u) (hnm : u ∉ exp) :
    (remainingIds store (u :: exp)).length < (remainingIds store exp).length := by
  unfold remainingIds
  exact filter_not_mem_cons_length_lt exp u (storedIds store) (List.nodup_dedup _)
    ((mem_storedIds store u).mpr hst) hnm

theorem buildSubtreeLoop_suff (store : Store) (fuel : Nat)
    (hGo : ∀ tech_id depth lang path exp,
      (remainingIds store exp).length < fuel → exp.Nodup →
      ∃ r, build_tech_subtree store fuel tech_id depth lang path exp = some r)
    (tech_id : String) (depth : Nat) (lang : String) (path : List String) :
    ∀ (l : List String) (exp : List String),
      (remainingIds store exp).length ≤ fuel → exp.Nodup →
      ∃ r, buildSubtreeLoop store
          (fun u exp2 => build_tech_subtree store fuel u (depth + 1) lang path exp2)
          tech_id depth lang path l exp = some r := by
  intro l
  induction l with
  | nil => intro exp _ _; exact ⟨([], exp), rfl⟩
  | cons u rest ih =>
    intro exp hbound hnd
    rw [buildSubtreeLoop_cons_eq]
    by_cases hb : format_tech_tree_entry store u (depth + 1) (some tech_id) lang = ""
    · rw [if_pos hb]
      exact ih exp hbound hnd
    · rw [if_neg hb]
      have hst : isStored store u := format_entry_stored hb
      by_cases hmem : u ∈ exp ∨ u ∈ path
      · rw [if_pos hmem]
        obtain ⟨r, hr⟩ := ih exp hbound hnd
        exact ⟨_, by rw [hr]; rfl⟩
      · rw [if_neg hmem]
        have hu : u ∉ exp := fun hc => hmem (Or.inl hc)
        have hlt : (remainingIds store (u :: exp)).length < fuel := by
          have := remainingIds_cons_lt store hst hu
          omega
        obtain ⟨p, hp⟩ := hGo u (depth + 1) lang path (u :: exp) hlt
          (List.nodup_cons.mpr ⟨hu, hnd⟩)
        obtain ⟨sub, expMid⟩ := p
        rw [hp]
        dsimp only
        have hpost := build_tech_subtree_post store fuel u (depth + 1) lang
          path (u :: exp) sub expMid hp (List.nodup_cons.mpr ⟨hu, hnd⟩)
        have hbound2 : (remainingIds store expMid).length ≤ fuel := by
          have h1 : (remainingIds store expMid).length ≤ (remainingIds store (u :: exp)).length :=
            remainingIds_mono store hpost.1
          omega
        obtain ⟨r, hr⟩ := ih expMid hbound2 hpost.2.2
        exact ⟨_, by rw [hr]; rfl⟩

theorem build_tech_subtree_suff (store : Store) :
    ∀ fuel tech_id depth lang path exp,
      (remainingIds store exp).length < fuel → exp.Nodup →
      ∃ r, build_tech_subtree store fuel tech_id depth lang path exp = some r := by
  intro fuel
  induction fuel with
  | zero => intro _ _ _ _ _ h; exact absurd h (by omega)
  | succ fuel ih =>
    intro tech_id depth lang path exp hbound hnd
    rw [build_tech_subtree_succ]
    by_cases h1 : ¬ isStored store tech_id
    · rw [if_pos h1]; exact ⟨_, rfl⟩
    · rw [if_neg h1]
      by_cases h2 : tech_id ∈ path
      · rw [if_pos h2]; exact ⟨_, rfl⟩
      · rw [if_neg h2]
        exact buildSubtreeLoop_suff store fuel ih tech_id depth lang (tech_id :: path)
          (pySorted (keyLe store) (succsOf store tech_id)) exp (by omega) hnd

/-- C4: the tree-rendering walk of `_build_tech_subtree`, run from a fresh
rendering state, terminates on every finite store — cyclic or not — with a
(finite) list of lines: the canonical fuel, one more than the number of
distinct stored identifiers, is never exhausted. -/
theorem build_tech_subtree_total (store : Store) (tech_id : String) (depth : Nat)
    (lang : String) :
    ∃ r : List String × List String,
      build_tech_subtree store (subtreeFuel store) tech_id depth lang [] [] = some r := by
  apply build_tech_subtree_suff store (subtreeFuel store) tech_id depth lang [] []
  · unfold subtreeFuel remainingIds
    have h1 : (storedIds store).filter (fun x => x ∉ ([] : List String)) = storedIds store :=
      List.filter_eq_self.mpr (by simp)
    rw [h1]
    omega
  · exact List.nodup_nil
